import Mathlib

/-!
# Verification of the deployKF kubeflow-pipelines-gitops reconciler

Shallow embedding of `common_python/reconcile_kfp.py` (and the duplicate
comparator in `common_python/compare_rendered_pipelines.py`), together with
proofs settling the frozen claims about it.

Conventions of the embedding:
* Parsed YAML/JSON documents (Python values produced by `yaml.safe_load` /
  `json.loads`) are modelled by the inductive type `Doc` below: `None`, `bool`,
  `int`, `float`, `str`, `list`, `dict`.  Python `float` is modelled by
  `PyFloat`: a finite value (as an exact `Rat`), NaN, `+inf` or `-inf`, since
  `yaml.safe_load(".nan")` / `json.loads("NaN")` etc. do produce the IEEE
  specials and they change the comparator's behaviour.  Python `dict` is an
  insertion-ordered association list with (in real inputs) unique keys, and
  `dict.get(k)` is first-match lookup with a `None` default.
* Remote I/O (GitHub downloads, YAML/JSON text parsing, the KFP API state) is
  supplied by an explicit `Env` record; the reconciler is embedded as a pure
  function from config and environment to the *trace* of remote calls it makes
  (`Ev` events), mirroring the statement order of `main`.
-/

namespace KfpGitops

/-- A Python `float` value: either a finite value (modelled exactly as a
rational) or one of the IEEE-754 specials NaN, `float("inf")`,
`float("-inf")`, all of which YAML/JSON parsing can produce. -/
inductive PyFloat where
  | finite (q : Rat) : PyFloat
  | nan : PyFloat
  | inf : PyFloat
  | neginf : PyFloat
deriving DecidableEq

/-- A parsed YAML/JSON document, i.e. the Python values that `yaml.safe_load`
and `json.loads` produce and that `compare_workflows` recurses over.
Python `None` is `Doc.none`; Python `float` is modelled by `PyFloat`. -/
inductive Doc where
  | none : Doc
  | bool (b : Bool) : Doc
  | int (n : Int) : Doc
  | float (f : PyFloat) : Doc
  | str (s : String) : Doc
  | list (xs : List Doc) : Doc
  | dict (kvs : List (String × Doc)) : Doc

/-- Python `x is None` on a document value. -/
def Doc.isNoneB : Doc → Bool
  | .none => true
  | _ => false

/-- Python's `type(x)` for the values of `Doc`, up to identity of the type
object; used to embed the `type_1 != type_2` check of `compare_recursive`
(note `bool` and `int` are distinct Python types). -/
def Doc.typeTag : Doc → Nat
  | .none => 0
  | .bool _ => 1
  | .int _ => 2
  | .float _ => 3
  | .str _ => 4
  | .list _ => 5
  | .dict _ => 6

/-- Python `d.get(k)` on a dict with default `None`: value of the first entry
whose key is `k`, else `Doc.none`. -/
def dictGet (m : List (String × Doc)) (k : String) : Doc :=
  match m with
  | [] => Doc.none
  | (k', v) :: rest => if k' = k then v else dictGet rest k

/-- Whether a dict has an entry for key `k` (Python `k in d`). -/
def hasKey (m : List (String × Doc)) (k : String) : Bool :=
  (m.map Prod.fst).contains k

/-- `current_key in ignore_keys` where `current_key` may be Python `None`
(the root of the recursion and list elements carry no key). -/
def keyIgnoredB (K : List String) : Option String → Bool
  | Option.none => false
  | some k => K.contains k

/-- Python `set(keys_1) == set(keys_2)` on two key lists. -/
def sameKeySet (l1 l2 : List String) : Bool :=
  l1.all (fun k => l2.contains k) && l2.all (fun k => l1.contains k)

theorem sizeOf_dictGet_lt (m : List (String × Doc)) (k : String) :
    sizeOf (dictGet m k) < 1 + sizeOf m := by
  induction m with
  | nil => simp [dictGet]
  | cons p rest ih =>
    obtain ⟨k', v⟩ := p
    simp only [dictGet]
    split
    · simp; omega
    · simp; omega

theorem sizeOf_lt_of_mem_zip {xs ys : List Doc} {p : Doc × Doc}
    (h : p ∈ xs.zip ys) :
    sizeOf p.1 < 1 + sizeOf xs ∧ sizeOf p.2 < 1 + sizeOf ys := by
  have h1 := List.sizeOf_lt_of_mem (List.of_mem_zip h).1
  have h2 := List.sizeOf_lt_of_mem (List.of_mem_zip h).2
  omega

/-- Python `abs(item_1 - item_2) < float_tol` on two floats, for a finite
tolerance (the source always uses the finite default `1e-9`).  When both
operands are finite this is exact rational arithmetic; when either operand is
NaN or ±inf the subtraction yields NaN or ±inf, `abs` of that is NaN or
`+inf`, and both `nan < tol` and `inf < tol` are `False` in IEEE-754 — so in
particular `abs(nan - nan) < tol` and `abs(inf - inf) < tol` are `False`. -/
def pyFloatAbsDiffLt (x y : PyFloat) (tol : Rat) : Bool :=
  match x, y with
  | PyFloat.finite a, PyFloat.finite b => decide (|a - b| < tol)
  | _, _ => false

/-- The body of `compare_workflows` (`compare_recursive(item_1, item_2,
current_key)`) from `reconcile_kfp.py` lines 835-886, duplicated verbatim in
`compare_rendered_pipelines.py` lines 123-174.  Check order is exactly the
source's: both-`None`, one-`None`, ignored key, differing runtime types, then
dict / list / float / other-scalar handling. -/
def docCompare (K : List String) (tol : Rat) (ck : Option String)
    (a b : Doc) : Bool :=
  if a.isNoneB && b.isNoneB then true
  else if a.isNoneB || b.isNoneB then false
  else if keyIgnoredB K ck then true
  else if Doc.typeTag a ≠ Doc.typeTag b then false
  else
    match a, b with
    | Doc.dict m1, Doc.dict m2 =>
        let keys1 := (m1.map Prod.fst).filter (fun k => !(K.contains k))
        let keys2 := (m2.map Prod.fst).filter (fun k => !(K.contains k))
        sameKeySet keys1 keys2 &&
        keys1.all (fun k => docCompare K tol (some k) (dictGet m1 k) (dictGet m2 k))
    | Doc.list xs, Doc.list ys =>
        (xs.length == ys.length) &&
        (xs.zip ys).attach.all (fun p => docCompare K tol Option.none p.1.1 p.1.2)
    | Doc.float x, Doc.float y => pyFloatAbsDiffLt x y tol
    | Doc.bool x, Doc.bool y => x == y
    | Doc.int x, Doc.int y => x == y
    | Doc.str x, Doc.str y => x == y
    | _, _ => false
termination_by sizeOf a + sizeOf b
decreasing_by
  · have h1 := sizeOf_dictGet_lt m1 k
    have h2 := sizeOf_dictGet_lt m2 k
    simp only [Doc.dict.sizeOf_spec]
    omega
  · have h := sizeOf_lt_of_mem_zip p.2
    simp only [Doc.list.sizeOf_spec]
    omega

/-- The default `ignore_keys` of `compare_workflows`. -/
def defaultIgnoreKeys : List String :=
  ["pipelines.kubeflow.org/pipeline_compilation_time",
   "pipelines.kubeflow.org/kfp_sdk_version"]

/-- The default `float_tol = 1e-9` of `compare_workflows`. -/
def floatTolDefault : Rat := 1 / 1000000000

/-- `compare_workflows(workflow_1, workflow_2, ignore_keys, float_tol=1e-9)`:
top-level entry, starting the recursion with no current key. -/
def compare_workflows (ignore_keys : List String) (w1 w2 : Doc) : Bool :=
  docCompare ignore_keys floatTolDefault Option.none w1 w2

/-- Whether a Python float is finite (not NaN and not ±inf). -/
def PyFloat.isFinite : PyFloat → Bool
  | PyFloat.finite _ => true
  | _ => false

mutual
/-- Every float leaf of the document is finite (no NaN, no ±inf).  On such
documents the comparator behaves set-theoretically; a NaN or infinite leaf
makes even self-comparison `False` (`abs(nan - nan) < tol` is `False`). -/
def Doc.allFloatsFinite : Doc → Bool
  | Doc.none => true
  | Doc.bool _ => true
  | Doc.int _ => true
  | Doc.float f => f.isFinite
  | Doc.str _ => true
  | Doc.list xs => allFloatsFiniteList xs
  | Doc.dict m => allFloatsFiniteKVs m

/-- `Doc.allFloatsFinite` over the elements of a list document. -/
def allFloatsFiniteList : List Doc → Bool
  | [] => true
  | d :: rest => d.allFloatsFinite && allFloatsFiniteList rest

/-- `Doc.allFloatsFinite` over the values of a dict document. -/
def allFloatsFiniteKVs : List (String × Doc) → Bool
  | [] => true
  | p :: rest => p.2.allFloatsFinite && allFloatsFiniteKVs rest
end

/-- Two documents "differ only in subtrees rooted at ignored keys": they are
equal except that, at any nesting depth, a dict entry whose key lies in `K`
may have any value on either side or be present on only one side.  This is
the hypothesis of the spec sentence behind claim C7, as a relation on the
document model (the `dict` constructor compares dicts as maps: key sets and
per-key lookups, restricted to non-ignored keys). -/
inductive DiffersOnlyUnderIgnored (K : List String) : Doc → Doc → Prop
  | refl (a : Doc) : DiffersOnlyUnderIgnored K a a
  | list (xs ys : List Doc) (hlen : xs.length = ys.length)
      (h : ∀ (i : Nat), i < xs.length → i < ys.length →
            DiffersOnlyUnderIgnored K (xs.getD i Doc.none) (ys.getD i Doc.none)) :
      DiffersOnlyUnderIgnored K (Doc.list xs) (Doc.list ys)
  | dict (m1 m2 : List (String × Doc))
      (hkeys : ∀ s : String, s ∉ K → hasKey m1 s = hasKey m2 s)
      (hvals : ∀ s : String, s ∉ K →
            DiffersOnlyUnderIgnored K (dictGet m1 s) (dictGet m2 s)) :
      DiffersOnlyUnderIgnored K (Doc.dict m1) (Doc.dict m2)

/-! ## The workflow validator (`validate_workflow_yaml`, lines 527-615)

The manifest text is abstracted by its YAML parse result (`Option Doc`,
`Option.none` meaning a `yaml.YAMLError`), and `json.loads` by an explicit
`parseJson` function.  The Python function's observable outcomes are: a bare
boolean (the `return False` statement on parse failure), the documented
`(valid, params)` pair, or an unhandled exception (`AttributeError` /
`TypeError` when a sub-object has an unexpected type). -/
/-- Python truthiness (`if x:`) on a document value. -/
def pyTruthy : Doc → Bool
  | .none => false
  | .bool b => b
  | .int n => n != 0
  | .float f =>
      match f with
      | PyFloat.finite q => q != 0
      | _ => true
  | .str s => s != ""
  | .list xs => !xs.isEmpty
  | .dict m => !m.isEmpty

/-- Python `d == "c"` for a document `d` and a string literal `"c"`:
true exactly when `d` is that string (no cross-type equality for strings). -/
def docEqStr (d : Doc) (c : String) : Bool :=
  match d with
  | .str s => s == c
  | _ => false

/-- Python `d.get(k, dflt)`: the stored value (even a stored `None`) when the
key is present, else the default. -/
def dictGetD (m : List (String × Doc)) (k : String) (dflt : Doc) : Doc :=
  if hasKey m k then dictGet m k else dflt

/-- What a call of the Python `validate_workflow_yaml` can return: a bare
boolean (the early `return False`), the `(valid, params)` tuple its signature
declares, or an unhandled exception escaping the call. -/
inductive ValidateRet where
  | bare (b : Bool)
  | pair (valid : Bool) (params : List (String × Doc))
  | crash (msg : String)

/-- Result of the `for parameter in pipeline_spec_parameters` loop:
parameters collected so far, plus whether the loop hit a nameless entry
(`break` with `valid_workflow = False`) or raised. -/
inductive ExtractRes where
  | ok (params : List (String × Doc))
  | invalid (params : List (String × Doc))
  | crash

/-- Python dict assignment `d[k] = v`: overwrite in place, else append. -/
def upsertParam (ps : List (String × Doc)) (k : String) (v : Doc) :
    List (String × Doc) :=
  if hasKey ps k then ps.map (fun p => if p.1 = k then (k, v) else p)
  else ps ++ [(k, v)]

/-- The parameter-extraction loop of `validate_workflow_yaml` (lines
601-613): each entry must be a dict; a missing or `None` name breaks the
loop invalidating the manifest; `optional` defaults to `False`.  (A non-dict
entry, or a non-string name, makes the Python code raise; names are strings
in every manifest the annotation grammar produces.) -/
def extractParams (acc : List (String × Doc)) : List Doc → ExtractRes
  | [] => ExtractRes.ok acc
  | d :: rest =>
    match d with
    | Doc.dict pm =>
      match dictGet pm "name" with
      | Doc.none => ExtractRes.invalid acc
      | Doc.str s =>
          extractParams (upsertParam acc s (dictGetD pm "optional" (Doc.bool false))) rest
      | _ => ExtractRes.crash
    | _ => ExtractRes.crash

/-- `validate_workflow_yaml(workflow_yaml, file_path)` of `reconcile_kfp.py`
lines 527-615, on the parse result of the manifest text.  Mirrors the source
statement by statement: the `yaml.YAMLError` path executes `return False`
(a bare boolean, not the declared pair); the apiVersion/kind/metadata/spec
checks; then, only if those pass, the pipeline-spec metadata entry is read
(`None`/absent invalidates; a falsy value skips JSON parsing; a JSON parse
error invalidates; a falsy parsed value skips extraction), and the input
parameters are extracted. -/
def validate_workflow_yaml (parseJson : String → Option Doc)
    (yamlData : Option Doc) : ValidateRet :=
  match yamlData with
  | Option.none => ValidateRet.bare false
  | some d =>
    match d with
    | Doc.dict m =>
      let apiVersion := dictGet m "apiVersion"
      let kind := dictGet m "kind"
      let metadata := dictGet m "metadata"
      let spec := dictGet m "spec"
      let valid0 := docEqStr apiVersion "argoproj.io/v1alpha1"
        && docEqStr kind "Workflow" && !metadata.isNoneB && !spec.isNoneB
      if valid0 then
        match metadata with
        | Doc.dict mm =>
          match dictGetD mm "annotations" (Doc.dict []) with
          | Doc.dict anns =>
            match dictGetD anns "pipelines.kubeflow.org/pipeline_spec" Doc.none with
            | Doc.none => ValidateRet.pair false []
            | Doc.str s =>
              if s == "" then ValidateRet.pair true []
              else
                match parseJson s with
                | Option.none => ValidateRet.pair false []
                | some ps =>
                  if pyTruthy ps then
                    match ps with
                    | Doc.dict psm =>
                      match dictGetD psm "inputs" (Doc.list []) with
                      | Doc.list inputs =>
                        match extractParams [] inputs with
                        | ExtractRes.ok prms => ValidateRet.pair true prms
                        | ExtractRes.invalid prms => ValidateRet.pair false prms
                        | ExtractRes.crash =>
                            ValidateRet.crash "error iterating pipeline_spec inputs"
                      | Doc.dict [] => ValidateRet.pair true []
                      | Doc.str "" => ValidateRet.pair true []
                      | _ => ValidateRet.crash "pipeline_spec inputs has unexpected type"
                    | _ => ValidateRet.crash "pipeline_spec is not a dict"
                  else ValidateRet.pair true []
            | other =>
                if pyTruthy other then
                  ValidateRet.crash "json.loads on a non-string value"
                else ValidateRet.pair true []
          | _ => ValidateRet.crash "metadata annotations value is not a dict"
        | _ => ValidateRet.crash "metadata is not a dict"
      else ValidateRet.pair false []
    | _ => ValidateRet.crash "top-level YAML document is not a mapping"

/-! ## Config data model (the schemas of lines 111-363, post-validation) -/
/-- One entry of `experiments.yaml` (name required, description optional). -/
structure ExperimentSpec where
  name : String
  description : Option String
deriving DecidableEq, Repr

/-- `pipeline_source` of a recurring run (all four fields required). -/
structure PipelineSource where
  githubOwner : String
  githubRepo : String
  gitReference : String
  filePath : String
deriving DecidableEq, Repr

/-- `valueFrom` of a pipeline parameter: `file_path` required, the other
fields defaulting to the pipeline source's. -/
structure ValueFromSpec where
  githubOwner : Option String
  githubRepo : Option String
  gitReference : Option String
  filePath : String
deriving DecidableEq, Repr

/-- One `pipeline_parameters` entry: a name with `value` or `valueFrom`. -/
structure ParamSpec where
  name : String
  value : Option String
  valueFrom : Option ValueFromSpec
deriving DecidableEq, Repr

/-- `job.trigger`: catchup plus optional dates and exactly one of
cron / interval_seconds (the schema enforces the exclusivity). -/
structure TriggerSpec where
  catchup : Bool
  startDate : Option String
  endDate : Option String
  cron : Option String
  intervalSeconds : Option Int
deriving DecidableEq, Repr

/-- `job` of a recurring run. -/
structure JobSpec where
  enabled : Bool
  name : String
  description : Option String
  experiment : String
  maxConcurrency : Int
  serviceAccount : Option String
  trigger : TriggerSpec
deriving DecidableEq, Repr

/-- One `recurring_runs.yaml` entry (`keep_history` defaults to 5 at the
use site, line 1237). -/
structure RecurringRunSpec where
  keepHistory : Option Int
  pipelineSource : PipelineSource
  pipelineParameters : List ParamSpec
  job : JobSpec
deriving DecidableEq, Repr

/-- The two config files consumed by `main`. -/
structure Config where
  experiments : List ExperimentSpec
  recurringRuns : List RecurringRunSpec
deriving DecidableEq, Repr

/-! ## Remote state and the event trace -/
/-- The fields of a remote recurring run (`ApiJob`) that the reconciler's
control flow reads: its id, its (versioned) name, and its enabled flag. -/
structure RemoteRun where
  id : String
  name : String
  enabled : Bool
deriving DecidableEq, Repr

/-- One remote call made by `main`, in program order.  `fetch` is the
GitHub download (`download_github_file`); `listJobs` the paginated
`list_jobs` drain; `classify` the `compare_api_job` desired-vs-live
comparison of the latest version; the remaining six are the mutating calls.
`createJob` records the id and versioned name the platform assigns and the
`enabled` flag passed to `create_recurring_run`. -/
inductive Ev where
  | fetch (owner repo ref path : String)
  | createExperiment (name : String)
  | unarchiveExperiment (name : String)
  | listJobs (jobName : String)
  | classify (jobName : String)
  | createJob (id name : String) (enabled : Bool)
  | enableJob (id : String)
  | disableJob (id : String)
  | deleteJob (id : String)
deriving DecidableEq, Repr

/-- Mutating recurring-run calls (create/enable/disable/delete). -/
def Ev.isJobMutating : Ev → Bool
  | .createJob _ _ _ => true
  | .enableJob _ => true
  | .disableJob _ => true
  | .deleteJob _ => true
  | _ => false

/-- All mutating platform calls (experiment creation/unarchive and the
recurring-run mutations). -/
def Ev.isMutating : Ev → Bool
  | .createExperiment _ => true
  | .unarchiveExperiment _ => true
  | e => e.isJobMutating

def Ev.isDelete : Ev → Bool
  | .deleteJob _ => true
  | _ => false

def Ev.isClassify : Ev → Bool
  | .classify _ => true
  | _ => false

def Ev.isFetch : Ev → Bool
  | .fetch _ _ _ _ => true
  | _ => false

/-- Whether a mutating call touches (enables / disables / deletes) the
remote job with the given id. -/
def Ev.targetsId (ev : Ev) (i : String) : Bool :=
  match ev with
  | .enableJob x => x == i
  | .disableJob x => x == i
  | .deleteJob x => x == i
  | _ => false

/-- The environment a run executes against: GitHub contents, the two text
parsers, the pre-existing remote experiments (by name) and recurring runs,
the outcome of `compare_api_job` for each job name's latest version
(abstracted: the per-job claims quantify over it and the phase claims do not
depend on it), the `strftime` timestamp of `get_new_job_name`, and the id
the platform assigns to a newly created run for each job name. -/
structure Env where
  fetchFile : String → String → String → String → Option String
  parseYaml : String → Option Doc
  parseJson : String → Option Doc
  remoteExperiments : List String
  remoteJobs : List RemoteRun
  upToDate : String → Bool
  nowTs : String
  freshId : String → String

/-! ## Versioned names (`get_existing_recurring_runs`, `get_new_job_name`) -/
/-- Shape of the timestamp component `YYYY-MM-DDTHH-MM-SSZ` (the
`[0-9]{4}-[0-9]{2}-[0-9]{2}T[0-9]{2}-[0-9]{2}-[0-9]{2}Z` group of the
regex at lines 633-635): exactly 20 characters, digits except for the
fixed `-`, `T`, `Z` positions. -/
def tsShapeL (ts : List Char) : Bool :=
  ts.length == 20 && (List.range 20).all fun i =>
    let c := ts.getD i ' '
    if i == 4 || i == 7 || i == 13 || i == 16 then c == '-'
    else if i == 10 then c == 'T'
    else if i == 19 then c == 'Z'
    else c.isDigit

/-- Whether the regex `^GIT::(?P<job_name>.*)__(?P<timestamp>...)$` matches
`nm` with job-name group equal to `j`.  Because the timestamp group has
fixed length 20 and is anchored at the end (with `__` just before it), the
regex decomposition is unique: `nm = "GIT::" ++ j ++ "__" ++ ts` with `ts`
of timestamp shape, which is what this checks positionally. -/
def matchGitNameL (nm j : List Char) : Bool :=
  nm.length == j.length + 27 &&
  nm.take 5 == "GIT::".toList &&
  ((nm.drop 5).take j.length == j) &&
  ((nm.drop (5 + j.length)).take 2 == ['_', '_']) &&
  tsShapeL (nm.drop (7 + j.length))

def matchGitName (nm j : String) : Bool := matchGitNameL nm.toList j.toList

/-- `get_new_job_name(job_name)` (lines 891-898) with the current-time
string supplied by the environment. -/
def newJobName (jobName ts : String) : String :=
  "GIT::" ++ jobName ++ "__" ++ ts

/-- The timestamp group of a matched name: its last 20 characters. -/
def tsKeyOf (r : RemoteRun) : List Char :=
  r.name.toList.drop (r.name.toList.length - 20)

/-- Python string `<` (lexicographic by code point). -/
def listCharLt : List Char → List Char → Bool
  | [], [] => false
  | [], _ :: _ => true
  | _ :: _, [] => false
  | a :: as, b :: bs =>
    if a.toNat < b.toNat then true
    else if b.toNat < a.toNat then false
    else listCharLt as bs

/-- Stable insertion for a descending sort by timestamp key (Python
`list.sort(key=..., reverse=True)` is stable). -/
def insertByTsDesc (r : RemoteRun) : List RemoteRun → List RemoteRun
  | [] => [r]
  | x :: xs =>
    if listCharLt (tsKeyOf x) (tsKeyOf r) then r :: x :: xs
    else x :: insertByTsDesc r xs

def sortByTsDesc (l : List RemoteRun) : List RemoteRun :=
  l.foldl (fun acc r => insertByTsDesc r acc) []

/-- `get_existing_recurring_runs(kfp_client, namespace, job_name)` (lines
618-662): drain all pages of `list_jobs` (the environment's `remoteJobs` is
the concatenation of all pages), keep the jobs whose name matches the
versioned-name regex with job-name group equal to `job_name`, and sort them
by timestamp group, newest first. -/
def get_existing_recurring_runs (jobs : List RemoteRun) (jobName : String) :
    List RemoteRun :=
  sortByTsDesc (jobs.filter fun r => matchGitName r.name jobName)

/-! ## The per-job reconciliation (`main`, lines 1277-1403) -/
/-- Python `s.endswith(suffix)`: the last characters of `s` are `suffix`. -/
def strEndsWith (s suffix : String) : Bool :=
  suffix.toList.length ≤ s.toList.length &&
    s.toList.drop (s.toList.length - suffix.toList.length) == suffix.toList

/-- Python `l[k:]` for an integer `k` (negative indices count from the
end). -/
def pySliceFrom {α : Type} (k : Int) (l : List α) : List α :=
  if 0 ≤ k then l.drop k.toNat
  else l.drop (l.length - (-k).toNat)

/-- Lines 1306-1316: disable every non-latest existing version that is
currently enabled (self-healing of operator drift), in listing order. -/
def preDisableEvs (existing : List RemoteRun) : List Ev :=
  ((existing.drop 1).filter fun r => r.enabled).map fun r => Ev.disableJob r.id

/-- Lines 1392-1403: when `keep_history != -1`, delete every version of the
(possibly just extended) list beyond index `keep_history`, in list order
(the list is sorted newest first). -/
def pruneEvs (keepHistory : Int) (runs : List RemoteRun) : List Ev :=
  if keepHistory = -1 then []
  else (pySliceFrom keepHistory runs).map fun r => Ev.deleteJob r.id

/-- One iteration of the `for recurring_run_spec in recurring_runs` loop of
`main` (lines 1277-1403), as the trace of remote calls it makes, given the
already-sorted existing versions, the `compare_api_job` outcome for the
latest version (`upToDate`, only consulted when a latest exists), and the
name/id of the run a create would produce.  Order mirrors the source:
list, classify (when a latest exists), disable stale non-latest versions,
then either reconcile the enabled flag of an up-to-date latest, or
create (disabled) → disable old latest → enable new (only if the job is
declared enabled); finally prune history. -/
def reconcileOneJob (jobName : String) (jobEnabled : Bool) (keepHistory : Int)
    (existing : List RemoteRun) (upToDate : Bool) (newName newId : String) :
    List Ev :=
  match existing.head? with
  | Option.none =>
      [Ev.listJobs jobName] ++ preDisableEvs existing
        ++ [Ev.createJob newId newName false]
        ++ (if jobEnabled then [Ev.enableJob newId] else [])
        ++ pruneEvs keepHistory [⟨newId, newName, false⟩]
  | some latest =>
      [Ev.listJobs jobName, Ev.classify jobName] ++ preDisableEvs existing ++
      (if upToDate then
        (if jobEnabled && !latest.enabled then [Ev.enableJob latest.id]
         else if !jobEnabled && latest.enabled then [Ev.disableJob latest.id]
         else [])
        ++ pruneEvs keepHistory existing
      else
        [Ev.createJob newId newName false, Ev.disableJob latest.id]
        ++ (if jobEnabled then [Ev.enableJob newId] else [])
        ++ pruneEvs keepHistory (⟨newId, newName, false⟩ :: existing))

/-! ## The three phases of `main` -/
/-- The experiment-reconciliation loop (lines 1021-1072): for each declared
experiment, create it when absent, warn (no call) on description mismatch,
and always unarchive it.  The unarchive call is recorded by experiment name
(the source passes the resolved id). -/
def expPhase (env : Env) : List ExperimentSpec → List Ev
  | [] => []
  | e :: rest =>
    ((if env.remoteExperiments.contains e.name then []
      else [Ev.createExperiment e.name])
      ++ [Ev.unarchiveExperiment e.name]) ++ expPhase env rest

/-- The `pipeline_parameters` resolution loop (lines 1148-1203): reject
duplicate names; a `value` is used as is; a `valueFrom` downloads the file
(defaults from the pipeline source), failing fatally when the download
fails; neither is an error.  Returns the fetch events made and the error,
if any. -/
def resolveParams (env : Env) (src : PipelineSource) :
    List ParamSpec → List String → List Ev × Option String
  | [], _ => ([], Option.none)
  | p :: rest, seen =>
    if seen.contains p.name then
      ([], some "duplicate pipeline parameter name")
    else
      match p.value with
      | some _ => resolveParams env src rest (p.name :: seen)
      | Option.none =>
        match p.valueFrom with
        | some vf =>
          let o := vf.githubOwner.getD src.githubOwner
          let rp := vf.githubRepo.getD src.githubRepo
          let g := vf.gitReference.getD src.gitReference
          let ev := Ev.fetch o rp g vf.filePath
          match env.fetchFile o rp g vf.filePath with
          | Option.none => ([ev], some "failed to get file for parameter")
          | some _ =>
            let r := resolveParams env src rest (p.name :: seen)
            (ev :: r.1, r.2)
        | Option.none => ([], some "parameter has neither value nor valueFrom")

/-- `workflow_yaml_parameters` names that the config does not set and that
are not optional (lines 1209-1223; requiredness is Python truthiness of the
stored `optional` value). -/
def requiredMissing (pset : List String) (wf : List (String × Doc)) :
    List String :=
  (wf.filter fun q => !(pset.contains q.1) && !(pyTruthy q.2)).map Prod.fst

/-- Config parameter names the manifest does not declare (lines 1225-1233). -/
def extraParamNames (pset : List String) (wf : List (String × Doc)) :
    List String :=
  pset.filter fun n => !((wf.map Prod.fst).contains n)

/-- Validation of one recurring run (the body of the loop at lines
1076-1233, after the uniqueness and experiment-reference checks): download
the pipeline source, require a `.yaml` path, validate the workflow and
extract its parameters, resolve the declared parameters, and compare the
two parameter name sets. -/
def validateRecurringRun (env : Env) (rr : RecurringRunSpec) :
    List Ev × Option String :=
  let src := rr.pipelineSource
  let ev0 := Ev.fetch src.githubOwner src.githubRepo src.gitReference src.filePath
  match env.fetchFile src.githubOwner src.githubRepo src.gitReference src.filePath with
  | Option.none => ([ev0], some "failed to get pipeline source")
  | some content =>
    if !(strEndsWith src.filePath ".yaml") then
      ([ev0], some "pipeline source is not a YAML file")
    else
      match validate_workflow_yaml env.parseJson (env.parseYaml content) with
      | ValidateRet.pair true wfParams =>
        let r := resolveParams env src rr.pipelineParameters []
        match r.2 with
        | some e => (ev0 :: r.1, some e)
        | Option.none =>
          let pset := rr.pipelineParameters.map (fun p => p.name)
          if !(requiredMissing pset wfParams).isEmpty then
            (ev0 :: r.1, some "missing required pipeline parameters")
          else if !(extraParamNames pset wfParams).isEmpty then
            (ev0 :: r.1, some "unexpected pipeline parameters")
          else (ev0 :: r.1, Option.none)
      | ValidateRet.pair false _ =>
          ([ev0], some "pipeline source not a valid Argo Workflow resource")
      | ValidateRet.bare _ =>
          ([ev0], some "TypeError unpacking validate_workflow_yaml result")
      | ValidateRet.crash m => ([ev0], some m)

/-- The validation loop over all recurring runs (lines 1074-1233): unique
job names, declared experiment references, then per-job validation; the
first failure aborts the run.  Returns the trace (GitHub fetches only) and
the error, if any. -/
def valPhase (env : Env) (expNames : List String) :
    List RecurringRunSpec → List String → List Ev × Option String
  | [], _ => ([], Option.none)
  | rr :: rest, found =>
    if found.contains rr.job.name then
      ([], some "recurring run defined more than once")
    else if !(expNames.contains rr.job.experiment) then
      ([], some "references an experiment not defined in experiments.yaml")
    else
      let v := validateRecurringRun env rr
      match v.2 with
      | some e => (v.1, some e)
      | Option.none =>
        let w := valPhase env expNames rest (rr.job.name :: found)
        (v.1 ++ w.1, w.2)

/-- The reconciliation loop over all recurring runs (lines 1235-1403),
reached only when every run validated. -/
def recPhase (env : Env) : List RecurringRunSpec → List Ev
  | [] => []
  | rr :: rest =>
    reconcileOneJob rr.job.name rr.job.enabled (rr.keepHistory.getD 5)
      (get_existing_recurring_runs env.remoteJobs rr.job.name)
      (env.upToDate rr.job.name)
      (newJobName rr.job.name env.nowTs) (env.freshId rr.job.name)
    ++ recPhase env rest

/-- `main` after argument/config-file handling (lines 1018-1403): reconcile
experiments, then validate every recurring run, then (only if all of them
validated) reconcile recurring runs.  With `--dry-run` both reconciliation
loops skip every iteration before any platform call and no client is even
created, while validation (including downloads) still runs in full.
Returns the trace of remote calls and the error that aborted the run, if
any. -/
def runMain (cfg : Config) (env : Env) (dryRun : Bool) : List Ev × Option String :=
  let expNames := cfg.experiments.map (fun e => e.name)
  let expTr := if dryRun then [] else expPhase env cfg.experiments
  let v := valPhase env expNames cfg.recurringRuns []
  match v.2 with
  | some e => (expTr ++ v.1, some e)
  | Option.none =>
      (expTr ++ v.1 ++ (if dryRun then [] else recPhase env cfg.recurringRuns),
       Option.none)

/-! ## The effect of the mutating calls on remote state -/
/-- How each call changes the remote set of versions of one logical job:
create prepends a new (initially disabled unless created enabled) version,
enable/disable flip the flag of the versions with that id, delete removes
them; reads change nothing. -/
def applyEv (st : List RemoteRun) : Ev → List RemoteRun
  | Ev.createJob i nm en => ⟨i, nm, en⟩ :: st
  | Ev.enableJob i => st.map fun r => if r.id = i then ⟨r.id, r.name, true⟩ else r
  | Ev.disableJob i => st.map fun r => if r.id = i then ⟨r.id, r.name, false⟩ else r
  | Ev.deleteJob i => st.filter fun r => !(r.id == i)
  | _ => st

def applyEvs (st : List RemoteRun) (evs : List Ev) : List RemoteRun :=
  evs.foldl applyEv st

/-- Number of currently enabled versions. -/
def countEnabled (st : List RemoteRun) : Nat :=
  (st.filter fun r => r.enabled).length

/-- Events that cannot create a new enabled version: everything except
`enableJob` and an enabled `createJob` (the reconciler always creates
disabled). -/
def nonEnablingEv : Ev → Bool
  | Ev.enableJob _ => false
  | Ev.createJob _ _ en => !en
  | _ => true

/-- Disabling, with disabled flag, every version whose id is in `ids`. -/
def offIfIn (ids : List String) (r : RemoteRun) : RemoteRun :=
  if ids.contains r.id then ⟨r.id, r.name, false⟩ else r

/-- The convergence prefix for a job that needs a new version: list,
classify (when a latest exists), disable stale non-latest versions, create
the new version disabled, disable the previous latest (when one exists) —
everything the reconciler does before the enable step. -/
def convergeEvs (jobName : String) (existing : List RemoteRun)
    (newName newId : String) : List Ev :=
  [Ev.listJobs jobName]
    ++ (if existing.isEmpty then [] else [Ev.classify jobName])
    ++ preDisableEvs existing
    ++ [Ev.createJob newId newName false]
    ++ (match existing.head? with
        | some latest => [Ev.disableJob latest.id]
        | Option.none => [])

/-! ## Concrete runs for the whole-run counterexamples -/
/-- A minimal valid workflow manifest document: right apiVersion and kind,
metadata carrying a pipeline-spec entry whose JSON parses to `{}` (no
declared inputs), and a spec section. -/
def exampleWorkflowDoc : Doc :=
  Doc.dict [("apiVersion", Doc.str "argoproj.io/v1alpha1"),
            ("kind", Doc.str "Workflow"),
            ("metadata", Doc.dict [("annotations", Doc.dict
              [("pipelines.kubeflow.org/pipeline_spec", Doc.str "PS")])]),
            ("spec", Doc.dict [])]

def exampleTrigger : TriggerSpec :=
  ⟨true, Option.none, Option.none, some "0 0 * * * *", Option.none⟩

/-- A recurring run named `j` with no parameters, sourced from
`o/r@m:wf.yaml`, grouped under the given experiment. -/
def exampleRecurringRun (expName : String) : RecurringRunSpec :=
  ⟨Option.none, ⟨"o", "r", "m", "wf.yaml"⟩, [],
   ⟨true, "j", Option.none, expName, 1, Option.none, exampleTrigger⟩⟩

/-- Environment for the C2 counterexample: the experiment `e` and one
enabled remote version of `j` already exist, the manifest downloads and
parses, and the latest version classifies as current. -/
def exampleEnvC2 : Env :=
  ⟨fun _ _ _ p => if p = "wf.yaml" then some "WF" else Option.none,
   fun s => if s = "WF" then some exampleWorkflowDoc else Option.none,
   fun s => if s = "PS" then some (Doc.dict []) else Option.none,
   ["e"],
   [⟨"id1", "GIT::j__2024-01-01T00-00-00Z", true⟩],
   fun _ => true,
   "2024-02-02T00-00-00Z",
   fun _ => "fresh"⟩

/-- A config whose single recurring run references the declared
experiment `e` — it validates successfully. -/
def exampleConfigC2 : Config := ⟨[⟨"e", Option.none⟩], [exampleRecurringRun "e"]⟩

/-- A config whose single recurring run references an experiment that
`experiments.yaml` does not declare — validation fails. -/
def exampleConfigC1 : Config :=
  ⟨[⟨"e", Option.none⟩], [exampleRecurringRun "missing"]⟩

/-- Environment for the C1 counterexample: nothing exists remotely, so the
experiment phase must create (and unarchive) the experiment. -/
def exampleEnvC1 : Env :=
  ⟨fun _ _ _ _ => Option.none, fun _ => Option.none, fun _ => Option.none,
   [], [], fun _ => false, "2024-02-02T00-00-00Z", fun _ => "fresh"⟩

/-! ## Theorems -/

/-! ## Helper lemmas about the comparator -/
theorem beq_comm_eq {α} [BEq α] [LawfulBEq α] (x y : α) : (x == y) = (y == x) := by
  by_cases h : x = y
  · subst h; rfl
  · rw [beq_eq_false_iff_ne.mpr h, beq_eq_false_iff_ne.mpr (Ne.symm h)]

theorem mem_zip_self {xs : List Doc} {p : Doc × Doc} (h : p ∈ xs.zip xs) :
    p.1 = p.2 ∧ p.1 ∈ xs := by
  induction xs with
  | nil => simp [List.zip] at h
  | cons x rest ih =>
    rw [List.zip_cons_cons, List.mem_cons] at h
    rcases h with h | h
    · subst h; simp
    · rcases ih h with ⟨h1, h2⟩
      exact ⟨h1, List.mem_cons_of_mem x h2⟩

theorem sameKeySet_refl (l : List String) : sameKeySet l l = true := by
  simp only [sameKeySet, Bool.and_self, List.all_eq_true]
  intro k hk
  simpa using hk

theorem sameKeySet_comm (l1 l2 : List String) :
    sameKeySet l1 l2 = sameKeySet l2 l1 := by
  simp [sameKeySet, Bool.and_comm]

theorem sameKeySet_mem_iff {l1 l2 : List String} (h : sameKeySet l1 l2 = true)
    (k : String) : k ∈ l1 ↔ k ∈ l2 := by
  simp only [sameKeySet, Bool.and_eq_true, List.all_eq_true] at h
  constructor
  · intro hk; simpa using h.1 k hk
  · intro hk; simpa using h.2 k hk

theorem pyFloatAbsDiffLt_comm (x y : PyFloat) (tol : Rat) :
    pyFloatAbsDiffLt x y tol = pyFloatAbsDiffLt y x tol := by
  cases x <;> cases y <;> simp only [pyFloatAbsDiffLt]
  rw [abs_sub_comm]

theorem allFloatsFinite_of_mem_list {xs : List Doc}
    (h : allFloatsFiniteList xs = true) {d : Doc} (hd : d ∈ xs) :
    d.allFloatsFinite = true := by
  induction xs with
  | nil => cases hd
  | cons x rest ih =>
    simp only [allFloatsFiniteList, Bool.and_eq_true] at h
    rcases List.mem_cons.mp hd with rfl | hd2
    · exact h.1
    · exact ih h.2 hd2

theorem allFloatsFinite_dictGet {m : List (String × Doc)}
    (h : allFloatsFiniteKVs m = true) (k : String) :
    (dictGet m k).allFloatsFinite = true := by
  induction m with
  | nil => simp [dictGet, Doc.allFloatsFinite]
  | cons p rest ih =>
    obtain ⟨k1, v⟩ := p
    simp only [allFloatsFiniteKVs, Bool.and_eq_true] at h
    simp only [dictGet]
    split
    · exact h.1
    · exact ih h.2

/-- `compare_recursive(a, a)` is `true` for every document whose float leaves
are all finite, for any positive tolerance (by strong induction on the size
of the document).  The finiteness hypothesis is necessary: a NaN or ±inf
leaf makes the float rule `abs(x - x) < tol` evaluate to `False`. -/
theorem docCompare_refl (K : List String) (tol : Rat) (hpos : 0 < tol) :
    ∀ (a : Doc), a.allFloatsFinite = true → ∀ (ck : Option String),
      docCompare K tol ck a a = true := by
  suffices h : ∀ (n : Nat) (a : Doc), sizeOf a ≤ n →
      a.allFloatsFinite = true → ∀ ck, docCompare K tol ck a a = true by
    intro a hf ck; exact h (sizeOf a) a le_rfl hf ck
  intro n
  induction n with
  | zero =>
    intro a h _ ck
    cases a <;> simp_arith at h
  | succ n ih =>
    intro a ha hfin ck
    by_cases hk : keyIgnoredB K ck = true
    · cases a <;> simp [docCompare, hk, Doc.isNoneB]
    · cases a with
      | none => simp [docCompare, Doc.isNoneB]
      | bool b => simp [docCompare, hk, Doc.isNoneB, Doc.typeTag]
      | int m => simp [docCompare, hk, Doc.isNoneB, Doc.typeTag]
      | str s => simp [docCompare, hk, Doc.isNoneB, Doc.typeTag]
      | float f =>
        simp only [Doc.allFloatsFinite] at hfin
        cases f with
        | finite q =>
          simp [docCompare, hk, Doc.isNoneB, Doc.typeTag, pyFloatAbsDiffLt,
            sub_self, abs_zero, hpos]
        | nan => simp [PyFloat.isFinite] at hfin
        | inf => simp [PyFloat.isFinite] at hfin
        | neginf => simp [PyFloat.isFinite] at hfin
      | list xs =>
        rw [docCompare]
        simp only [Doc.isNoneB, Bool.and_self, Bool.or_self, Bool.false_eq_true,
          if_false, if_neg hk, Doc.typeTag, ne_eq, not_true_eq_false, if_false,
          beq_self_eq_true, Bool.true_and, List.all_eq_true]
        intro p _
        obtain ⟨h1, h2⟩ := mem_zip_self p.2
        have hsz : sizeOf p.1.1 ≤ n := by
          have := List.sizeOf_lt_of_mem h2
          have hx : sizeOf (Doc.list xs) = 1 + sizeOf xs := by simp
          omega
        have hmf : p.1.1.allFloatsFinite = true := by
          simp only [Doc.allFloatsFinite] at hfin
          exact allFloatsFinite_of_mem_list hfin h2
        rw [← h1]
        exact ih p.1.1 hsz hmf Option.none
      | dict m =>
        rw [docCompare]
        simp only [Doc.isNoneB, Bool.and_self, Bool.or_self, Bool.false_eq_true,
          if_false, if_neg hk, Doc.typeTag, ne_eq, not_true_eq_false, if_false,
          sameKeySet_refl, Bool.true_and, List.all_eq_true]
        intro k _
        have hsz : sizeOf (dictGet m k) ≤ n := by
          have := sizeOf_dictGet_lt m k
          have hx : sizeOf (Doc.dict m) = 1 + sizeOf m := by simp
          omega
        have hmf : (dictGet m k).allFloatsFinite = true := by
          simp only [Doc.allFloatsFinite] at hfin
          exact allFloatsFinite_dictGet hfin k
        exact ih (dictGet m k) hsz hmf (some k)

/-- `compare_recursive(a, b) == compare_recursive(b, a)` for all documents
(by strong induction on total size). -/
theorem docCompare_symm (K : List String) (tol : Rat) :
    ∀ (a b : Doc) (ck : Option String),
      docCompare K tol ck a b = docCompare K tol ck b a := by
  suffices h : ∀ (n : Nat) (a b : Doc), sizeOf a + sizeOf b ≤ n → ∀ ck,
      docCompare K tol ck a b = docCompare K tol ck b a by
    intro a b ck; exact h (sizeOf a + sizeOf b) a b le_rfl ck
  intro n
  induction n with
  | zero =>
    intro a b h ck
    cases a <;> simp_arith at h
  | succ n ih =>
    intro a b hab ck
    by_cases hk : keyIgnoredB K ck = true
    · cases a <;> cases b <;> simp [docCompare, hk, Doc.isNoneB]
    · cases a <;> cases b <;>
        try (simp [docCompare, hk, Doc.isNoneB, Doc.typeTag]; done)
      -- remaining goals: the six same-constructor non-`None` pairs
      · -- bool
        simp only [docCompare, hk, Doc.isNoneB, Doc.typeTag]
        simp [beq_comm_eq]
      · -- int
        simp only [docCompare, hk, Doc.isNoneB, Doc.typeTag]
        simp [beq_comm_eq]
      · -- float
        simp only [docCompare, hk, Doc.isNoneB, Doc.typeTag]
        rw [pyFloatAbsDiffLt_comm]
      · -- str
        simp only [docCompare, hk, Doc.isNoneB, Doc.typeTag]
        simp [beq_comm_eq]
      · -- list
        rename_i xs ys
        have hsz : ∀ p ∈ xs.zip ys,
            docCompare K tol Option.none p.1 p.2
              = docCompare K tol Option.none p.2 p.1 := by
          intro p hp
          have h1 := List.sizeOf_lt_of_mem (List.of_mem_zip hp).1
          have h2 := List.sizeOf_lt_of_mem (List.of_mem_zip hp).2
          have hx : sizeOf (Doc.list xs) = 1 + sizeOf xs := by simp
          have hy : sizeOf (Doc.list ys) = 1 + sizeOf ys := by simp
          exact ih p.1 p.2 (by omega) Option.none
        rw [docCompare, docCompare]
        simp only [Doc.isNoneB, Bool.and_self, Bool.or_self, Bool.and_false,
          Bool.false_and, Bool.false_eq_true, if_false, if_neg hk, Doc.typeTag,
          ne_eq, not_true_eq_false, if_false]
        by_cases hlen : xs.length = ys.length
        · have hlb : (xs.length == ys.length) = true := by simp [hlen]
          have hlb2 : (ys.length == xs.length) = true := by simp [hlen]
          rw [hlb, hlb2, Bool.true_and, Bool.true_and]
          rw [Bool.eq_iff_iff, List.all_eq_true, List.all_eq_true]
          constructor
          · intro h q _
            obtain ⟨p, hp, hpq⟩ := List.mem_map.mp
              (show q.1 ∈ List.map Prod.swap (xs.zip ys) by
                rw [List.zip_swap]; exact q.2)
            have h1 : docCompare K tol Option.none p.1 p.2 = true :=
              h ⟨p, hp⟩ (List.mem_attach _ _)
            rw [hsz p hp] at h1
            rw [← hpq]
            simpa using h1
          · intro h q _
            have hq' : Prod.swap q.1 ∈ ys.zip xs := by
              rw [← List.zip_swap xs ys]
              exact List.mem_map_of_mem Prod.swap q.2
            have h1 : docCompare K tol Option.none (Prod.swap q.1).1
                (Prod.swap q.1).2 = true :=
              h ⟨Prod.swap q.1, hq'⟩ (List.mem_attach _ _)
            simp only [Prod.fst_swap, Prod.snd_swap] at h1
            rw [← hsz q.1 q.2] at h1
            exact h1
        · have hlb : (xs.length == ys.length) = false := by
            rw [beq_eq_false_iff_ne]; exact hlen
          have hlb2 : (ys.length == xs.length) = false := by
            rw [beq_eq_false_iff_ne]; exact fun h => hlen h.symm
          rw [hlb, hlb2, Bool.false_and, Bool.false_and]
      · -- dict
        rename_i m1 m2
        have hsz : ∀ k : String,
            docCompare K tol (some k) (dictGet m1 k) (dictGet m2 k)
              = docCompare K tol (some k) (dictGet m2 k) (dictGet m1 k) := by
          intro k
          have h1 := sizeOf_dictGet_lt m1 k
          have h2 := sizeOf_dictGet_lt m2 k
          have hx : sizeOf (Doc.dict m1) = 1 + sizeOf m1 := by simp
          have hy : sizeOf (Doc.dict m2) = 1 + sizeOf m2 := by simp
          exact ih (dictGet m1 k) (dictGet m2 k) (by omega) (some k)
        rw [docCompare, docCompare]
        simp only [Doc.isNoneB, Bool.and_self, Bool.or_self, Bool.and_false,
          Bool.false_and, Bool.false_eq_true, if_false, if_neg hk, Doc.typeTag,
          ne_eq, not_true_eq_false, if_false]
        rw [sameKeySet_comm ((m2.map Prod.fst).filter (fun k => !(K.contains k)))
          ((m1.map Prod.fst).filter (fun k => !(K.contains k)))]
        by_cases hks : sameKeySet ((m1.map Prod.fst).filter (fun k => !(K.contains k)))
            ((m2.map Prod.fst).filter (fun k => !(K.contains k))) = true
        · rw [hks, Bool.true_and, Bool.true_and]
          have hmem := sameKeySet_mem_iff hks
          rw [Bool.eq_iff_iff, List.all_eq_true, List.all_eq_true]
          constructor
          · intro h k hkm
            rw [← hsz k]
            exact h k ((hmem k).mpr hkm)
          · intro h k hkm
            rw [hsz k]
            exact h k ((hmem k).mp hkm)
        · have : sameKeySet ((m1.map Prod.fst).filter (fun k => !(K.contains k)))
              ((m2.map Prod.fst).filter (fun k => !(K.contains k))) = false :=
            Bool.eq_false_iff.mpr hks
          rw [this, Bool.false_and, Bool.false_and]

theorem mem_filterKeys_iff {m : List (String × Doc)} {K : List String}
    {k : String} :
    k ∈ (m.map Prod.fst).filter (fun k => !(K.contains k)) ↔
      (hasKey m k = true ∧ k ∉ K) := by
  rw [List.mem_filter]
  simp [hasKey, List.contains]

/-- If two documents whose float leaves are all finite differ only under
ignored keys, `compare_recursive` deems them equal (for any positive
tolerance and any current key). -/
theorem docCompare_of_differsOnlyUnderIgnored (K : List String) (tol : Rat)
    (hpos : 0 < tol) {a b : Doc} (h : DiffersOnlyUnderIgnored K a b) :
    a.allFloatsFinite = true → b.allFloatsFinite = true →
    ∀ ck, docCompare K tol ck a b = true := by
  induction h with
  | refl a => exact fun hfa _ ck => docCompare_refl K tol hpos a hfa ck
  | list xs ys hlen h ih =>
    intro hfa hfb ck
    by_cases hk : keyIgnoredB K ck = true
    · simp [docCompare, hk, Doc.isNoneB]
    · rw [docCompare]
      simp only [Doc.isNoneB, Bool.and_self, Bool.or_self, Bool.false_eq_true,
        if_false, if_neg hk, Doc.typeTag, ne_eq, not_true_eq_false, if_false]
      have hlb : (xs.length == ys.length) = true := by simp [hlen]
      rw [hlb, Bool.true_and, List.all_eq_true]
      intro p _
      obtain ⟨i, hi, higet⟩ := List.mem_iff_getElem.mp p.2
      have hx : i < xs.length := by
        rw [List.length_zip] at hi; omega
      have hy : i < ys.length := by
        rw [List.length_zip] at hi; omega
      have hp1 : p.1 = (xs.getD i Doc.none, ys.getD i Doc.none) := by
        rw [← higet, List.getElem_zip]
        rw [List.getD_eq_getElem xs Doc.none hx, List.getD_eq_getElem ys Doc.none hy]
      have hf1 : (xs.getD i Doc.none).allFloatsFinite = true := by
        rw [List.getD_eq_getElem xs Doc.none hx]
        simp only [Doc.allFloatsFinite] at hfa
        exact allFloatsFinite_of_mem_list hfa (xs.getElem_mem hx)
      have hf2 : (ys.getD i Doc.none).allFloatsFinite = true := by
        rw [List.getD_eq_getElem ys Doc.none hy]
        simp only [Doc.allFloatsFinite] at hfb
        exact allFloatsFinite_of_mem_list hfb (ys.getElem_mem hy)
      rw [hp1]
      exact ih i hx hy hf1 hf2 Option.none
  | dict m1 m2 hkeys hvals ih =>
    intro hfa hfb ck
    by_cases hk : keyIgnoredB K ck = true
    · simp [docCompare, hk, Doc.isNoneB]
    · rw [docCompare]
      simp only [Doc.isNoneB, Bool.and_self, Bool.or_self, Bool.false_eq_true,
        if_false, if_neg hk, Doc.typeTag, ne_eq, not_true_eq_false, if_false]
      have hss : sameKeySet
          ((m1.map Prod.fst).filter fun k => !(K.contains k))
          ((m2.map Prod.fst).filter fun k => !(K.contains k)) = true := by
        simp only [sameKeySet, Bool.and_eq_true, List.all_eq_true]
        constructor
        · intro k hkm
          obtain ⟨h1, h2⟩ := mem_filterKeys_iff.mp hkm
          have h3 : hasKey m2 k = true := by rw [← hkeys k h2]; exact h1
          have : k ∈ (m2.map Prod.fst).filter fun k => !(K.contains k) :=
            mem_filterKeys_iff.mpr ⟨h3, h2⟩
          simpa [List.contains] using this
        · intro k hkm
          obtain ⟨h1, h2⟩ := mem_filterKeys_iff.mp hkm
          have h3 : hasKey m1 k = true := by rw [hkeys k h2]; exact h1
          have : k ∈ (m1.map Prod.fst).filter fun k => !(K.contains k) :=
            mem_filterKeys_iff.mpr ⟨h3, h2⟩
          simpa [List.contains] using this
      rw [hss, Bool.true_and, List.all_eq_true]
      intro k hkm
      obtain ⟨_, h2⟩ := mem_filterKeys_iff.mp hkm
      have hg1 : (dictGet m1 k).allFloatsFinite = true := by
        simp only [Doc.allFloatsFinite] at hfa
        exact allFloatsFinite_dictGet hfa k
      have hg2 : (dictGet m2 k).allFloatsFinite = true := by
        simp only [Doc.allFloatsFinite] at hfb
        exact allFloatsFinite_dictGet hfb k
      exact ih k h2 hg1 hg2 (some k)

theorem floatTolDefault_pos : (0 : Rat) < floatTolDefault := by
  norm_num [floatTolDefault]

/-- Counterexample to C6 as stated: the comparator is not reflexive for
arbitrary documents.  `yaml.safe_load("x: .nan")` yields `{"x": nan}`, and
comparing that document with itself returns `False`: the float rule
evaluates `abs(nan - nan) < 1e-9`, and NaN compares `False` with
everything. -/
theorem claim_C6_counterexample :
    compare_workflows defaultIgnoreKeys
      (Doc.dict [("x", Doc.float PyFloat.nan)])
      (Doc.dict [("x", Doc.float PyFloat.nan)]) = false := by
  have hinner : docCompare
      ["pipelines.kubeflow.org/pipeline_compilation_time",
       "pipelines.kubeflow.org/kfp_sdk_version"] floatTolDefault (some "x")
      (Doc.float PyFloat.nan) (Doc.float PyFloat.nan) = false := by
    rw [docCompare]
    simp +decide [Doc.isNoneB, keyIgnoredB, Doc.typeTag, pyFloatAbsDiffLt]
  rw [compare_workflows, docCompare]
  simp +decide [Doc.isNoneB, keyIgnoredB, Doc.typeTag, sameKeySet, dictGet,
    defaultIgnoreKeys, hinner]

/-- C6 (amended): the comparator is symmetric — `equal(a, b, ignore_keys=K)`
equals `equal(b, a, ignore_keys=K)` for every two documents and every
ignore-key set — and reflexive for every document all of whose float leaves
are finite: `equal(a, a, ignore_keys=K)` is true for such `a`.  Reflexivity
does not extend to arbitrary documents: a NaN (or ±inf) float leaf makes
self-comparison `False`. -/
theorem claim_C6_comparator_symmetric_and_reflexive :
    (∀ (K : List String) (a b : Doc),
        compare_workflows K a b = compare_workflows K b a) ∧
    (∀ (K : List String) (a : Doc), a.allFloatsFinite = true →
        compare_workflows K a a = true) := by
  constructor
  · intro K a b
    exact docCompare_symm K floatTolDefault a b Option.none
  · intro K a hf
    exact docCompare_refl K floatTolDefault floatTolDefault_pos a hf Option.none

/-- Witness for C6: a concrete finite-float document compares equal to
itself, and a concrete pair of documents compares the same in both orders. -/
theorem claim_C6_witness :
    Doc.allFloatsFinite
      (Doc.dict [("x", Doc.float (PyFloat.finite (3 / 2))), ("y", Doc.str "a")])
      = true ∧
    compare_workflows ["k"]
      (Doc.dict [("x", Doc.float (PyFloat.finite (3 / 2))), ("y", Doc.str "a")])
      (Doc.dict [("x", Doc.float (PyFloat.finite (3 / 2))), ("y", Doc.str "a")])
      = true ∧
    compare_workflows ["k"] (Doc.int 1) (Doc.str "a")
      = compare_workflows ["k"] (Doc.str "a") (Doc.int 1) := by
  have hf : Doc.allFloatsFinite
      (Doc.dict [("x", Doc.float (PyFloat.finite (3 / 2))), ("y", Doc.str "a")])
      = true := by
    simp [Doc.allFloatsFinite, allFloatsFiniteKVs, PyFloat.isFinite]
  exact ⟨hf, claim_C6_comparator_symmetric_and_reflexive.2 ["k"] _ hf,
    claim_C6_comparator_symmetric_and_reflexive.1 ["k"] (Doc.int 1) (Doc.str "a")⟩

/-- Counterexample to C7 as stated: two documents that differ only under the
ignored key `"noise"` but share a NaN float leaf at the non-ignored key
`"x"` compare not-equal, because the float rule evaluates
`abs(nan - nan) < 1e-9`, which is `False`. -/
theorem claim_C7_counterexample :
    DiffersOnlyUnderIgnored ["noise"]
      (Doc.dict [("noise", Doc.int 1), ("x", Doc.float PyFloat.nan)])
      (Doc.dict [("x", Doc.float PyFloat.nan)]) ∧
    compare_workflows ["noise"]
      (Doc.dict [("noise", Doc.int 1), ("x", Doc.float PyFloat.nan)])
      (Doc.dict [("x", Doc.float PyFloat.nan)]) = false := by
  constructor
  · apply DiffersOnlyUnderIgnored.dict
    · intro s hs
      have hn : s ≠ "noise" := by
        intro hh; exact hs (by rw [hh]; exact List.mem_singleton_self _)
      by_cases hx : s = "x"
      · subst hx; rfl
      · simp only [hasKey, List.contains]
        simp [Ne.symm hx, Ne.symm hn]
        exact fun hh => absurd hh hn
    · intro s hs
      have hn : s ≠ "noise" := by
        intro hh; exact hs (by rw [hh]; exact List.mem_singleton_self _)
      by_cases hx : s = "x"
      · subst hx
        have e1 : dictGet [("noise", Doc.int 1), ("x", Doc.float PyFloat.nan)] "x"
            = Doc.float PyFloat.nan := by simp [dictGet]
        have e2 : dictGet [("x", Doc.float PyFloat.nan)] "x"
            = Doc.float PyFloat.nan := by simp [dictGet]
        rw [e1, e2]
        exact DiffersOnlyUnderIgnored.refl _
      · have e1 : dictGet [("noise", Doc.int 1), ("x", Doc.float PyFloat.nan)] s
            = Doc.none := by simp [dictGet, Ne.symm hx, Ne.symm hn]
        have e2 : dictGet [("x", Doc.float PyFloat.nan)] s = Doc.none := by
          simp [dictGet, Ne.symm hx]
        rw [e1, e2]
        exact DiffersOnlyUnderIgnored.refl _
  · have hinner : docCompare ["noise"] floatTolDefault (some "x")
        (Doc.float PyFloat.nan) (Doc.float PyFloat.nan) = false := by
      rw [docCompare]
      simp +decide [Doc.isNoneB, keyIgnoredB, Doc.typeTag, pyFloatAbsDiffLt]
    rw [compare_workflows, docCompare]
    simp +decide [Doc.isNoneB, keyIgnoredB, Doc.typeTag, sameKeySet, dictGet,
      hinner]

/-- C7 (amended): for two documents all of whose float leaves are finite,
if they differ only in subtrees rooted at ignored keys — at any nesting
depth, including one side having the key and the other lacking it — they
compare equal.  Without the finiteness restriction this fails: a shared NaN
leaf outside the ignored subtrees makes the comparison `False`. -/
theorem claim_C7_ignored_key_subtrees_compare_equal
    (K : List String) (a b : Doc) (h : DiffersOnlyUnderIgnored K a b)
    (hfa : a.allFloatsFinite = true) (hfb : b.allFloatsFinite = true) :
    compare_workflows K a b = true :=
  docCompare_of_differsOnlyUnderIgnored K floatTolDefault floatTolDefault_pos
    h hfa hfb Option.none

/-- Witness for C7: a finite-float dict carrying the ignored key `"noise"`
(with an arbitrary value) compares equal to the same dict lacking that key. -/
theorem claim_C7_witness :
    DiffersOnlyUnderIgnored ["noise"]
      (Doc.dict [("noise", Doc.int 1), ("x", Doc.str "a")])
      (Doc.dict [("x", Doc.str "a")]) ∧
    Doc.allFloatsFinite (Doc.dict [("noise", Doc.int 1), ("x", Doc.str "a")])
      = true ∧
    Doc.allFloatsFinite (Doc.dict [("x", Doc.str "a")]) = true ∧
    compare_workflows ["noise"]
      (Doc.dict [("noise", Doc.int 1), ("x", Doc.str "a")])
      (Doc.dict [("x", Doc.str "a")]) = true := by
  have hrel : DiffersOnlyUnderIgnored ["noise"]
      (Doc.dict [("noise", Doc.int 1), ("x", Doc.str "a")])
      (Doc.dict [("x", Doc.str "a")]) := by
    apply DiffersOnlyUnderIgnored.dict
    · intro s hs
      have hn : s ≠ "noise" := by
        intro hh; exact hs (by rw [hh]; exact List.mem_singleton_self _)
      by_cases hx : s = "x"
      · subst hx; rfl
      · simp only [hasKey, List.contains]
        simp [Ne.symm hx, Ne.symm hn]
        exact fun hh => absurd hh hn
    · intro s hs
      have hn : s ≠ "noise" := by
        intro hh; exact hs (by rw [hh]; exact List.mem_singleton_self _)
      by_cases hx : s = "x"
      · subst hx
        have e1 : dictGet [("noise", Doc.int 1), ("x", Doc.str "a")] "x"
            = Doc.str "a" := by simp [dictGet]
        have e2 : dictGet [("x", Doc.str "a")] "x" = Doc.str "a" := by
          simp [dictGet]
        rw [e1, e2]
        exact DiffersOnlyUnderIgnored.refl _
      · have e1 : dictGet [("noise", Doc.int 1), ("x", Doc.str "a")] s
            = Doc.none := by simp [dictGet, Ne.symm hx, Ne.symm hn]
        have e2 : dictGet [("x", Doc.str "a")] s = Doc.none := by
          simp [dictGet, Ne.symm hx]
        rw [e1, e2]
        exact DiffersOnlyUnderIgnored.refl _
  have hfa : Doc.allFloatsFinite
      (Doc.dict [("noise", Doc.int 1), ("x", Doc.str "a")]) = true := by
    simp [Doc.allFloatsFinite, allFloatsFiniteKVs]
  have hfb : Doc.allFloatsFinite (Doc.dict [("x", Doc.str "a")]) = true := by
    simp [Doc.allFloatsFinite, allFloatsFiniteKVs]
  exact ⟨hrel, hfa, hfb,
    claim_C7_ignored_key_subtrees_compare_equal ["noise"] _ _ hrel hfa hfb⟩

/-- C10: two values of different runtime types never compare equal — the
runtime-type check fires before the float-tolerance and value-equality rules,
so `1 : int` vs `1.0 : float` and `true : bool` vs `1 : int` are not equal. -/
theorem claim_C10_different_runtime_types_not_equal
    (K : List String) (a b : Doc) (h : Doc.typeTag a ≠ Doc.typeTag b) :
    compare_workflows K a b = false := by
  cases a <;> cases b <;>
    first
      | exact absurd rfl h
      | simp [compare_workflows, docCompare, Doc.isNoneB, Doc.typeTag,
          keyIgnoredB]

/-- Witness for C10: the integer `1` and the float `1.0` are numerically
equal but compare not-equal; likewise `true` and `1`. -/
theorem claim_C10_witness :
    compare_workflows defaultIgnoreKeys (Doc.int 1)
      (Doc.float (PyFloat.finite 1)) = false ∧
    compare_workflows defaultIgnoreKeys (Doc.bool true) (Doc.int 1) = false :=
  ⟨claim_C10_different_runtime_types_not_equal defaultIgnoreKeys _ _ (by decide),
   claim_C10_different_runtime_types_not_equal defaultIgnoreKeys _ _ (by decide)⟩

/-- C8: `validate_workflow_yaml` is specified (by its own type annotation
and docstring) to return the pair `(is_valid, declared_parameters)` with
`is_valid = False` when the text fails to parse; the code instead executes
`return False` on a `yaml.YAMLError`, returning a bare boolean and not a
pair, so the caller's tuple unpacking at line 1134 raises a `TypeError`. -/
theorem claim_C8_parse_failure_returns_bare_false
    (parseJson : String → Option Doc) :
    validate_workflow_yaml parseJson Option.none = ValidateRet.bare false ∧
    ∀ (v : Bool) (ps : List (String × Doc)),
      validate_workflow_yaml parseJson Option.none ≠ ValidateRet.pair v ps := by
  refine ⟨rfl, ?_⟩
  intro v ps h
  exact ValidateRet.noConfusion h

/-! ## State-machine lemmas for the per-job claims -/
theorem applyEvs_append (st : List RemoteRun) (l1 l2 : List Ev) :
    applyEvs st (l1 ++ l2) = applyEvs (applyEvs st l1) l2 := by
  simp [applyEvs, List.foldl_append]

theorem countEnabled_cons (r : RemoteRun) (l : List RemoteRun) :
    countEnabled (r :: l) = (if r.enabled then 1 else 0) + countEnabled l := by
  simp only [countEnabled, List.filter_cons]
  split
  · simp only [List.length_cons]; omega
  · simp

theorem countEnabled_applyEv_le (st : List RemoteRun) (ev : Ev)
    (h : nonEnablingEv ev = true) :
    countEnabled (applyEv st ev) ≤ countEnabled st := by
  cases ev with
  | createJob i nm en =>
    simp [nonEnablingEv] at h
    simp [applyEv, countEnabled_cons, h]
  | enableJob i => simp [nonEnablingEv] at h
  | disableJob i =>
    simp only [applyEv]
    induction st with
    | nil => simp
    | cons r rest ih =>
      simp only [List.map_cons, countEnabled_cons]
      split
      · simp; omega
      · omega
  | deleteJob i =>
    simp only [applyEv]
    induction st with
    | nil => simp
    | cons r rest ih =>
      rw [List.filter_cons]
      split
      · rw [countEnabled_cons, countEnabled_cons]; omega
      · rw [countEnabled_cons]
        split <;> omega
  | fetch o rp g p => simp [applyEv]
  | createExperiment nm => simp [applyEv]
  | unarchiveExperiment nm => simp [applyEv]
  | listJobs j => simp [applyEv]
  | classify j => simp [applyEv]

theorem countEnabled_applyEvs_le (evs : List Ev) :
    ∀ (st : List RemoteRun), (∀ ev ∈ evs, nonEnablingEv ev = true) →
      countEnabled (applyEvs st evs) ≤ countEnabled st := by
  induction evs with
  | nil => intro st _; simp [applyEvs]
  | cons ev rest ih =>
    intro st h
    have h1 : applyEvs st (ev :: rest) = applyEvs (applyEv st ev) rest := rfl
    rw [h1]
    calc countEnabled (applyEvs (applyEv st ev) rest)
        ≤ countEnabled (applyEv st ev) :=
          ih (applyEv st ev) (fun e he => h e (List.mem_cons_of_mem ev he))
      _ ≤ countEnabled st := countEnabled_applyEv_le st ev (h ev (List.mem_cons_self ev rest))

/-- Enabling an id adds at most as many enabled versions as there are
versions carrying that id. -/
theorem countEnabled_applyEv_enable (st : List RemoteRun) (i : String) :
    countEnabled (applyEv st (Ev.enableJob i)) ≤
      countEnabled st + (st.filter fun r => r.id == i).length := by
  simp only [applyEv]
  induction st with
  | nil => simp
  | cons r rest ih =>
    rw [List.map_cons, countEnabled_cons, countEnabled_cons, List.filter_cons]
    by_cases hid : r.id = i
    · simp only [if_pos hid]
      have hb : (r.id == i) = true := by simp [hid]
      rw [hb]
      simp only [if_true, List.length_cons]
      split <;> omega
    · simp only [if_neg hid]
      have : (r.id == i) = false := by simp [hid]
      rw [this]
      simp only [Bool.false_eq_true, if_false]
      omega

theorem applyEvs_disableList (ids : List String) :
    ∀ st : List RemoteRun,
      applyEvs st (ids.map Ev.disableJob) = st.map (offIfIn ids) := by
  induction ids with
  | nil =>
    intro st
    simp only [List.map_nil, applyEvs, List.foldl_nil]
    have h0 : offIfIn [] = fun r => r := by funext r; simp [offIfIn]
    rw [h0, List.map_id']
  | cons i rest ih =>
    intro st
    have h1 : applyEvs st ((i :: rest).map Ev.disableJob)
        = applyEvs (applyEv st (Ev.disableJob i)) (rest.map Ev.disableJob) := rfl
    rw [h1, ih]
    simp only [applyEv, List.map_map]
    congr 1
    funext r
    by_cases hid : r.id = i
    · simp only [Function.comp_apply, if_pos hid, offIfIn]
      subst hid
      simp
    · simp only [Function.comp_apply, if_neg hid, offIfIn]
      by_cases hrest : rest.contains r.id
      · simp [hrest, hid]
      · simp [hrest, hid]

theorem countEnabled_eq_zero_of_all (st : List RemoteRun)
    (h : ∀ r ∈ st, r.enabled = false) : countEnabled st = 0 := by
  induction st with
  | nil => rfl
  | cons r rest ih =>
    rw [countEnabled_cons, h r (List.mem_cons_self r rest)]
    simp only [Bool.false_eq_true, if_false, Nat.zero_add]
    exact ih (fun x hx => h x (List.mem_cons_of_mem r hx))

theorem filter_id_len_map (st : List RemoteRun) (f : RemoteRun → RemoteRun)
    (hf : ∀ r, (f r).id = r.id) (i : String) :
    ((st.map f).filter fun r => r.id == i).length
      = (st.filter fun r => r.id == i).length := by
  induction st with
  | nil => rfl
  | cons r rest ih =>
    rw [List.map_cons, List.filter_cons, List.filter_cons, hf]
    split
    · simp only [List.length_cons, ih]
    · exact ih

theorem filter_id_len_zero (st : List RemoteRun) (i : String)
    (h : i ∉ st.map fun r => r.id) :
    (st.filter fun r => r.id == i).length = 0 := by
  induction st with
  | nil => rfl
  | cons r rest ih =>
    simp only [List.map_cons, List.mem_cons] at h
    push_neg at h
    rw [List.filter_cons]
    have hb : (r.id == i) = false := by
      simp only [beq_eq_false_iff_ne]
      exact fun hh => h.1 (hh.symm)
    rw [hb]
    simp only [Bool.false_eq_true, if_false]
    exact ih h.2

theorem reconcileOneJob_stale_eq (jobName : String) (jobEnabled : Bool)
    (keepHistory : Int) (existing : List RemoteRun) (upToDate : Bool)
    (newName newId : String) (hstate : existing = [] ∨ upToDate = false) :
    reconcileOneJob jobName jobEnabled keepHistory existing upToDate newName newId
      = convergeEvs jobName existing newName newId
        ++ (if jobEnabled then [Ev.enableJob newId] else [])
        ++ pruneEvs keepHistory (⟨newId, newName, false⟩ :: existing) := by
  rcases existing with _ | ⟨L, tail⟩
  · simp [reconcileOneJob, convergeEvs, preDisableEvs]
  · have hupd : upToDate = false := by
      rcases hstate with h | h
      · exact absurd h (by simp)
      · exact h
    subst hupd
    simp [reconcileOneJob, convergeEvs]

theorem applyEvs_convergeEvs_cons (jobName : String) (L : RemoteRun)
    (tail : List RemoteRun) (newName newId : String) :
    applyEvs (L :: tail) (convergeEvs jobName (L :: tail) newName newId)
      = ((⟨newId, newName, false⟩ : RemoteRun)
          :: (L :: tail).map (offIfIn ((tail.filter fun r => r.enabled).map fun r => r.id))).map
            (fun r => if r.id = L.id then ⟨r.id, r.name, false⟩ else r) := by
  have hpre : preDisableEvs (L :: tail)
      = ((tail.filter fun r => r.enabled).map fun r => r.id).map Ev.disableJob := by
    simp [preDisableEvs, List.map_map, Function.comp]
  simp only [convergeEvs, List.isEmpty_cons, List.head?_cons, Bool.false_eq_true,
    if_false, applyEvs_append, hpre]
  rw [show applyEvs (L :: tail) [Ev.listJobs jobName] = L :: tail from rfl]
  rw [show ∀ st : List RemoteRun, applyEvs st [Ev.classify jobName] = st from fun _ => rfl]
  rw [applyEvs_disableList]
  rfl

theorem countEnabled_convergeEvs (jobName : String)
    (existing : List RemoteRun) (newName newId : String) :
    countEnabled (applyEvs existing (convergeEvs jobName existing newName newId))
      = 0 := by
  rcases existing with _ | ⟨L, tail⟩
  · rw [show applyEvs [] (convergeEvs jobName [] newName newId)
        = [⟨newId, newName, false⟩] from rfl]
    rfl
  · rw [applyEvs_convergeEvs_cons]
    apply countEnabled_eq_zero_of_all
    intro r hr
    obtain ⟨x, hx, rfl⟩ := List.mem_map.mp hr
    have hoffkeep : ∀ y : RemoteRun, y.enabled = false →
        (if y.id = L.id then (⟨y.id, y.name, false⟩ : RemoteRun) else y).enabled
          = false := by
      intro y hy; split <;> simp [hy]
    rcases List.mem_cons.mp hx with rfl | hx1
    · exact hoffkeep _ rfl
    · obtain ⟨y, hy, rfl⟩ := List.mem_map.mp hx1
      by_cases hyen : y.enabled
      · rcases List.mem_cons.mp hy with rfl | hytail
        · -- y = L : either already disabled by the drift pass, or hit by the
          -- disable-old step (its id is L.id)
          by_cases hc : (((tail.filter fun r => r.enabled).map fun r => r.id).contains y.id)
              = true
          · have hoy : offIfIn ((tail.filter fun r => r.enabled).map fun r => r.id) y
                = ⟨y.id, y.name, false⟩ := by
              simp only [offIfIn]; rw [if_pos hc]
            rw [hoy]
            exact hoffkeep _ rfl
          · have hoy : offIfIn ((tail.filter fun r => r.enabled).map fun r => r.id) y
                = y := by
              simp only [offIfIn]; rw [if_neg hc]
            rw [hoy, if_pos rfl]
        · -- y is an enabled non-latest version: disabled by the drift pass
          have hc : (((tail.filter fun r => r.enabled).map fun r => r.id).contains y.id)
              = true := by
            simp only [List.contains_eq_any_beq, List.any_eq_true]
            refine ⟨y.id, List.mem_map_of_mem _ (List.mem_filter.mpr ⟨hytail, by simp [hyen]⟩), by simp⟩
          have hoy : offIfIn ((tail.filter fun r => r.enabled).map fun r => r.id) y
              = ⟨y.id, y.name, false⟩ := by
            simp only [offIfIn]; rw [if_pos hc]
          rw [hoy]
          exact hoffkeep _ rfl
      · have hyf : y.enabled = false := by simpa using hyen
        have hoyen : (offIfIn ((tail.filter fun r => r.enabled).map fun r => r.id) y).enabled
            = false := by
          simp only [offIfIn]
          split <;> simp [hyf]
        exact hoffkeep _ hoyen

theorem filter_newId_convergeEvs (jobName : String) (existing : List RemoteRun)
    (newName newId : String)
    (hfresh : newId ∉ existing.map fun r => r.id) :
    ((applyEvs existing (convergeEvs jobName existing newName newId)).filter
        fun r => r.id == newId).length = 1 := by
  rcases existing with _ | ⟨L, tail⟩
  · rw [show applyEvs [] (convergeEvs jobName [] newName newId)
        = [⟨newId, newName, false⟩] from rfl]
    simp
  · rw [applyEvs_convergeEvs_cons]
    rw [filter_id_len_map _ _ (fun r => by split <;> rfl)]
    rw [List.filter_cons]
    have hb : ((⟨newId, newName, false⟩ : RemoteRun).id == newId) = true := by simp
    rw [hb]
    simp only [if_true, List.length_cons]
    rw [filter_id_len_map _ _ (fun r => by simp only [offIfIn]; split <;> rfl)]
    rw [filter_id_len_zero _ _ hfresh]

theorem nonEnabling_convergeEvs (jobName : String) (existing : List RemoteRun)
    (newName newId : String) :
    ∀ ev ∈ convergeEvs jobName existing newName newId,
      nonEnablingEv ev = true := by
  intro ev h
  simp only [convergeEvs, List.append_assoc, List.mem_append,
    List.mem_singleton] at h
  rcases h with rfl | h
  · rfl
  rcases h with h | h
  · rcases existing with _ | ⟨L, tail⟩ <;> simp at h
    subst h; rfl
  rcases h with h | h
  · simp only [preDisableEvs, List.mem_map] at h
    obtain ⟨r, _, rfl⟩ := h
    rfl
  rcases h with rfl | h
  · rfl
  · rcases existing with _ | ⟨L, tail⟩
    · simp at h
    · simp only [List.head?_cons, List.mem_singleton] at h
      subst h; rfl

theorem nonEnabling_pruneEvs (keepHistory : Int) (runs : List RemoteRun) :
    ∀ ev ∈ pruneEvs keepHistory runs, nonEnablingEv ev = true := by
  intro ev h
  simp only [pruneEvs] at h
  split at h
  · simp at h
  · obtain ⟨r, _, rfl⟩ := List.mem_map.mp h
    rfl

/-- C3: when the per-job state is NO_VERSION_EXISTS or LATEST_STALE (no
existing version, or the latest classified stale), the reconciler creates
the new version with `enabled=false` first, then disables the previous
latest version if one existed, and enables the new version last — and only
when `job.enabled` is declared true.  Starting from a settled remote state
(at most one enabled version; the new id fresh), no prefix of the call
sequence ever leaves two enabled versions, and the state reached just
before the enable step has no enabled version at all (so a failure before
enabling leaves none rather than two). -/
theorem claim_C3_create_disable_enable_order
    (jobName : String) (jobEnabled : Bool) (keepHistory : Int)
    (existing : List RemoteRun) (upToDate : Bool) (newName newId : String)
    (hstate : existing = [] ∨ upToDate = false)
    (hone : countEnabled existing ≤ 1)
    (hfresh : newId ∉ existing.map fun r => r.id) :
    (reconcileOneJob jobName jobEnabled keepHistory existing upToDate newName newId
      = convergeEvs jobName existing newName newId
        ++ (if jobEnabled then [Ev.enableJob newId] else [])
        ++ pruneEvs keepHistory (⟨newId, newName, false⟩ :: existing)) ∧
    countEnabled (applyEvs existing
      (convergeEvs jobName existing newName newId)) = 0 ∧
    (∀ n : Nat,
      countEnabled (applyEvs existing
        ((reconcileOneJob jobName jobEnabled keepHistory existing upToDate
            newName newId).take n)) ≤ 1) := by
  have heq := reconcileOneJob_stale_eq jobName jobEnabled keepHistory existing
    upToDate newName newId hstate
  refine ⟨heq, countEnabled_convergeEvs jobName existing newName newId, ?_⟩
  intro n
  rw [heq, List.append_assoc, List.take_append_eq_append_take, applyEvs_append]
  by_cases hn : n ≤ (convergeEvs jobName existing newName newId).length
  · have h0 : n - (convergeEvs jobName existing newName newId).length = 0 := by
      omega
    rw [h0, List.take_zero]
    rw [show ∀ st : List RemoteRun, applyEvs st [] = st from fun _ => rfl]
    calc countEnabled (applyEvs existing
          ((convergeEvs jobName existing newName newId).take n))
        ≤ countEnabled existing :=
          countEnabled_applyEvs_le _ existing
            (fun ev hev => nonEnabling_convergeEvs jobName existing newName newId
              ev (List.mem_of_mem_take hev))
      _ ≤ 1 := hone
  · push_neg at hn
    rw [List.take_of_length_le (le_of_lt hn)]
    have hzero := countEnabled_convergeEvs jobName existing newName newId
    have hcnt1 := filter_newId_convergeEvs jobName existing newName newId hfresh
    by_cases hje : jobEnabled = true
    · rw [if_pos hje]
      have hm : 1 ≤ n - (convergeEvs jobName existing newName newId).length := by
        omega
      have htake : ([Ev.enableJob newId]
            ++ pruneEvs keepHistory (⟨newId, newName, false⟩ :: existing)).take
              (n - (convergeEvs jobName existing newName newId).length)
          = Ev.enableJob newId
            :: (pruneEvs keepHistory (⟨newId, newName, false⟩ :: existing)).take
              (n - (convergeEvs jobName existing newName newId).length - 1) := by
        rcases Nat.exists_eq_add_of_le hm with ⟨k, hk⟩
        rw [hk]
        simp [List.take_succ_cons, Nat.add_comm]
      rw [htake]
      rw [show ∀ (st : List RemoteRun) (e : Ev) (l : List Ev),
          applyEvs st (e :: l) = applyEvs (applyEv st e) l from fun _ _ _ => rfl]
      calc countEnabled (applyEvs
            (applyEv (applyEvs existing (convergeEvs jobName existing newName newId))
              (Ev.enableJob newId))
            ((pruneEvs keepHistory (⟨newId, newName, false⟩ :: existing)).take
              (n - (convergeEvs jobName existing newName newId).length - 1)))
          ≤ countEnabled
            (applyEv (applyEvs existing (convergeEvs jobName existing newName newId))
              (Ev.enableJob newId)) :=
            countEnabled_applyEvs_le _ _
              (fun ev hev => nonEnabling_pruneEvs _ _ ev (List.mem_of_mem_take hev))
        _ ≤ countEnabled (applyEvs existing (convergeEvs jobName existing newName newId))
              + ((applyEvs existing (convergeEvs jobName existing newName newId)).filter
                  fun r => r.id == newId).length :=
            countEnabled_applyEv_enable _ newId
        _ ≤ 1 := by rw [hzero, hcnt1]
    · rw [if_neg hje, List.nil_append]
      calc countEnabled (applyEvs
            (applyEvs existing (convergeEvs jobName existing newName newId))
            ((pruneEvs keepHistory (⟨newId, newName, false⟩ :: existing)).take
              (n - (convergeEvs jobName existing newName newId).length)))
          ≤ countEnabled (applyEvs existing (convergeEvs jobName existing newName newId)) :=
            countEnabled_applyEvs_le _ _
              (fun ev hev => nonEnabling_pruneEvs _ _ ev (List.mem_of_mem_take hev))
        _ ≤ 1 := by rw [hzero]; omega

/-- Witness for C3 at a concrete stale state: one enabled latest version,
a fresh id for the new version. -/
theorem claim_C3_witness :
    (([⟨"a", "GIT::j__2024-01-01T00-00-00Z", true⟩] : List RemoteRun) = []
        ∨ false = false) ∧
    countEnabled [⟨"a", "GIT::j__2024-01-01T00-00-00Z", true⟩] ≤ 1 ∧
    "b" ∉ ([⟨"a", "GIT::j__2024-01-01T00-00-00Z", true⟩] : List RemoteRun).map
      (fun r => r.id) ∧
    ((reconcileOneJob "j" true 5 [⟨"a", "GIT::j__2024-01-01T00-00-00Z", true⟩]
        false "GIT::j__2024-02-02T00-00-00Z" "b"
      = convergeEvs "j" [⟨"a", "GIT::j__2024-01-01T00-00-00Z", true⟩]
          "GIT::j__2024-02-02T00-00-00Z" "b"
        ++ [Ev.enableJob "b"]
        ++ pruneEvs 5 (⟨"b", "GIT::j__2024-02-02T00-00-00Z", false⟩
            :: [⟨"a", "GIT::j__2024-01-01T00-00-00Z", true⟩])) ∧
    countEnabled (applyEvs [⟨"a", "GIT::j__2024-01-01T00-00-00Z", true⟩]
      (convergeEvs "j" [⟨"a", "GIT::j__2024-01-01T00-00-00Z", true⟩]
        "GIT::j__2024-02-02T00-00-00Z" "b")) = 0 ∧
    (∀ n : Nat, countEnabled (applyEvs [⟨"a", "GIT::j__2024-01-01T00-00-00Z", true⟩]
      ((reconcileOneJob "j" true 5 [⟨"a", "GIT::j__2024-01-01T00-00-00Z", true⟩]
          false "GIT::j__2024-02-02T00-00-00Z" "b").take n)) ≤ 1)) := by
  refine ⟨Or.inr rfl, by decide, by decide, ?_⟩
  have h := claim_C3_create_disable_enable_order "j" true 5
    [⟨"a", "GIT::j__2024-01-01T00-00-00Z", true⟩] false
    "GIT::j__2024-02-02T00-00-00Z" "b" (Or.inr rfl) (by decide) (by decide)
  simpa using h

theorem filter_isDelete_preDisable (existing : List RemoteRun) :
    (preDisableEvs existing).filter Ev.isDelete = [] := by
  rw [List.filter_eq_nil_iff]
  intro ev hev
  obtain ⟨r, _, rfl⟩ := List.mem_map.mp hev
  simp [Ev.isDelete]

theorem filter_isDelete_prune (keepHistory : Int) (runs : List RemoteRun) :
    (pruneEvs keepHistory runs).filter Ev.isDelete = pruneEvs keepHistory runs := by
  rw [List.filter_eq_self]
  intro ev hev
  simp only [pruneEvs] at hev
  split at hev
  · simp at hev
  · obtain ⟨r, _, rfl⟩ := List.mem_map.mp hev
    rfl

/-- The delete calls of one pass are exactly the pruning of the final
version list: the (possibly just extended) newest-first list less its first
`keep_history` entries, in that list order. -/
theorem filter_isDelete_reconcileOneJob (jobName : String) (jobEnabled : Bool)
    (keepHistory : Int) (existing : List RemoteRun) (upToDate : Bool)
    (newName newId : String) :
    (reconcileOneJob jobName jobEnabled keepHistory existing upToDate newName
        newId).filter Ev.isDelete
      = pruneEvs keepHistory
          (if existing.isEmpty || !upToDate then
            (⟨newId, newName, false⟩ : RemoteRun) :: existing
          else existing) := by
  rcases existing with _ | ⟨L, tail⟩
  · simp only [reconcileOneJob, List.head?_nil, List.isEmpty_nil, Bool.true_or,
      if_true, List.filter_append]
    rw [filter_isDelete_preDisable, filter_isDelete_prune]
    cases jobEnabled <;> simp [Ev.isDelete]
  · by_cases hupd : upToDate = true
    · cases hje : jobEnabled <;> cases hLe : L.enabled <;>
        simp [reconcileOneJob, hupd, hje, hLe, List.filter_append,
          filter_isDelete_preDisable, filter_isDelete_prune, Ev.isDelete]
    · have hupd2 : upToDate = false := by
        cases upToDate
        · rfl
        · exact absurd rfl hupd
      subst hupd2
      simp only [reconcileOneJob, List.head?_cons, Bool.false_eq_true, if_false,
        List.isEmpty_cons, Bool.not_false, Bool.or_true, if_true,
        List.filter_append]
      rw [filter_isDelete_preDisable, filter_isDelete_prune]
      cases jobEnabled <;> simp [Ev.isDelete]

/-- C4 (amended): on every pass — whether or not a create happened — if
`keep_history != -1` the reconciler deletes exactly the versions beyond the
newest `keep_history` of the final version list (the existing newest-first
list, with the new version prepended when one was created), in that list's
order, i.e. newest first among the pruned; with `keep_history = -1` it
performs zero deletes regardless of version count. -/
theorem claim_C4_prune_beyond_keep_history (jobName : String)
    (jobEnabled : Bool) (keepHistory : Int) (existing : List RemoteRun)
    (upToDate : Bool) (newName newId : String) (hk : -1 ≤ keepHistory) :
    (reconcileOneJob jobName jobEnabled keepHistory existing upToDate newName
        newId).filter Ev.isDelete
      = (if keepHistory = -1 then ([] : List Ev)
         else ((if existing.isEmpty || !upToDate then
                  (⟨newId, newName, false⟩ : RemoteRun) :: existing
                else existing).drop keepHistory.toNat).map
                fun r => Ev.deleteJob r.id) := by
  rw [filter_isDelete_reconcileOneJob]
  by_cases hm : keepHistory = -1
  · simp [pruneEvs, hm]
  · have h0 : (0 : Int) ≤ keepHistory := by omega
    simp only [pruneEvs, if_neg hm, pySliceFrom, if_pos h0]

/-- Witness for C4: four versions with the latest current and
`keep_history = 2` delete exactly the two oldest (in newest-first order). -/
theorem claim_C4_witness :
    ((-1 : Int) ≤ 2) ∧
    (reconcileOneJob "j" true 2
        [⟨"d", "GIT::j__2024-04-01T00-00-00Z", true⟩,
         ⟨"c", "GIT::j__2024-03-01T00-00-00Z", false⟩,
         ⟨"b", "GIT::j__2024-02-01T00-00-00Z", false⟩,
         ⟨"a", "GIT::j__2024-01-01T00-00-00Z", false⟩] true "nn" "ni").filter
        Ev.isDelete
      = (if (2 : Int) = -1 then ([] : List Ev)
         else (((if ([⟨"d", "GIT::j__2024-04-01T00-00-00Z", true⟩,
                  ⟨"c", "GIT::j__2024-03-01T00-00-00Z", false⟩,
                  ⟨"b", "GIT::j__2024-02-01T00-00-00Z", false⟩,
                  ⟨"a", "GIT::j__2024-01-01T00-00-00Z", false⟩]
                    : List RemoteRun).isEmpty || !true then
                  (⟨"ni", "nn", false⟩ : RemoteRun)
                    :: [⟨"d", "GIT::j__2024-04-01T00-00-00Z", true⟩,
                        ⟨"c", "GIT::j__2024-03-01T00-00-00Z", false⟩,
                        ⟨"b", "GIT::j__2024-02-01T00-00-00Z", false⟩,
                        ⟨"a", "GIT::j__2024-01-01T00-00-00Z", false⟩]
                else [⟨"d", "GIT::j__2024-04-01T00-00-00Z", true⟩,
                      ⟨"c", "GIT::j__2024-03-01T00-00-00Z", false⟩,
                      ⟨"b", "GIT::j__2024-02-01T00-00-00Z", false⟩,
                      ⟨"a", "GIT::j__2024-01-01T00-00-00Z", false⟩]).drop
                  (2 : Int).toNat).map fun r => Ev.deleteJob r.id)) :=
  ⟨by decide,
   claim_C4_prune_beyond_keep_history "j" true 2 _ true "nn" "ni" (by decide)⟩

/-- Counterexample to C4 as stated: with three versions (latest current)
and `keep_history = 1`, the two excess versions are deleted newest-first —
`id2` before `id1` — not oldest-first as the claim says. -/
theorem claim_C4_counterexample :
    (reconcileOneJob "j" true 1
        [⟨"id3", "GIT::j__2024-03-01T00-00-00Z", true⟩,
         ⟨"id2", "GIT::j__2024-02-01T00-00-00Z", false⟩,
         ⟨"id1", "GIT::j__2024-01-01T00-00-00Z", false⟩] true "nn" "ni").filter
        Ev.isDelete
      = [Ev.deleteJob "id2", Ev.deleteJob "id1"] ∧
    ([Ev.deleteJob "id2", Ev.deleteJob "id1"] : List Ev)
      ≠ [Ev.deleteJob "id1", Ev.deleteJob "id2"] := by
  constructor
  · decide
  · decide

/-- C5 (amended): for a job declared enabled with zero remote versions, one
pass performs exactly one create (disabled) followed by exactly one enable,
and zero disables and zero deletes — provided `keep_history` is `-1` or at
least 1 (with `keep_history = 0` the code deletes the version it just
created and enabled). -/
theorem claim_C5_create_then_enable (jobName : String) (keepHistory : Int)
    (newName newId : String) (hk : keepHistory = -1 ∨ 1 ≤ keepHistory) :
    (reconcileOneJob jobName true keepHistory [] false newName newId).filter
        Ev.isJobMutating
      = [Ev.createJob newId newName false, Ev.enableJob newId] := by
  rcases hk with hk | hk
  · subst hk
    simp [reconcileOneJob, preDisableEvs, pruneEvs, Ev.isJobMutating,
      List.filter_append]
  · have hne : keepHistory ≠ -1 := by omega
    have hdrop : pySliceFrom keepHistory
        [(⟨newId, newName, false⟩ : RemoteRun)] = [] := by
      simp only [pySliceFrom, if_pos (show (0 : Int) ≤ keepHistory by omega)]
      have h1 : 1 ≤ keepHistory.toNat := by omega
      apply List.drop_eq_nil_of_le
      simpa using h1
    simp [reconcileOneJob, preDisableEvs, pruneEvs, hne, hdrop,
      Ev.isJobMutating, List.filter_append]

/-- Witness for C5 at the default `keep_history = 5`. -/
theorem claim_C5_witness :
    ((5 : Int) = -1 ∨ 1 ≤ (5 : Int)) ∧
    (reconcileOneJob "j" true 5 [] false "nn" "ni").filter Ev.isJobMutating
      = [Ev.createJob "ni" "nn" false, Ev.enableJob "ni"] :=
  ⟨Or.inr (by decide),
   claim_C5_create_then_enable "j" 5 "nn" "ni" (Or.inr (by decide))⟩

/-- Counterexample to C5 as stated: with `keep_history = 0` (allowed by the
schema, minimum is -1) the pass deletes the run it just created, so the
claimed "zero delete operations" fails. -/
theorem claim_C5_counterexample :
    (reconcileOneJob "j" true 0 [] false "nn" "ni").filter Ev.isDelete
      ≠ [] := by decide

/-! ## Phase-shape lemmas for the whole-run claims -/
theorem expPhase_events (env : Env) :
    ∀ exps : List ExperimentSpec, ∀ ev ∈ expPhase env exps,
      (∃ nm, ev = Ev.createExperiment nm) ∨ (∃ nm, ev = Ev.unarchiveExperiment nm) := by
  intro exps
  induction exps with
  | nil => intro ev h; simp [expPhase] at h
  | cons e rest ih =>
    intro ev h
    simp only [expPhase, List.append_assoc, List.mem_append] at h
    rcases h with h | h
    · split at h
      · simp at h
      · simp only [List.mem_singleton] at h
        exact Or.inl ⟨e.name, h⟩
    · rcases h with h | h
      · simp only [List.mem_singleton] at h
        exact Or.inr ⟨e.name, h⟩
      · exact ih ev h

theorem resolveParams_events (env : Env) (src : PipelineSource) :
    ∀ (ps : List ParamSpec) (seen : List String),
      ∀ ev ∈ (resolveParams env src ps seen).1, Ev.isFetch ev = true := by
  intro ps
  induction ps with
  | nil => intro seen ev h; simp [resolveParams] at h
  | cons p rest ih =>
    intro seen ev h
    simp only [resolveParams] at h
    split at h
    · simp at h
    · split at h
      · exact ih _ ev h
      · split at h
        · split at h
          · simp only [List.mem_singleton] at h; subst h; rfl
          · simp only [List.mem_cons] at h
            rcases h with rfl | h
            · rfl
            · exact ih _ ev h
        · simp at h

theorem validateRecurringRun_events (env : Env) (rr : RecurringRunSpec) :
    ∀ ev ∈ (validateRecurringRun env rr).1, Ev.isFetch ev = true := by
  intro ev h
  simp only [validateRecurringRun] at h
  split at h
  · simp only [List.mem_singleton] at h; subst h; rfl
  · split at h
    · simp only [List.mem_singleton] at h; subst h; rfl
    · split at h
      · split at h
        · simp only [List.mem_cons] at h
          rcases h with rfl | h
          · rfl
          · exact resolveParams_events env rr.pipelineSource _ _ ev h
        · split at h
          · simp only [List.mem_cons] at h
            rcases h with rfl | h
            · rfl
            · exact resolveParams_events env rr.pipelineSource _ _ ev h
          · split at h
            · simp only [List.mem_cons] at h
              rcases h with rfl | h
              · rfl
              · exact resolveParams_events env rr.pipelineSource _ _ ev h
            · simp only [List.mem_cons] at h
              rcases h with rfl | h
              · rfl
              · exact resolveParams_events env rr.pipelineSource _ _ ev h
      · simp only [List.mem_singleton] at h; subst h; rfl
      · simp only [List.mem_singleton] at h; subst h; rfl
      · simp only [List.mem_singleton] at h; subst h; rfl

theorem valPhase_events (env : Env) (expNames : List String) :
    ∀ (rrs : List RecurringRunSpec) (found : List String),
      ∀ ev ∈ (valPhase env expNames rrs found).1, Ev.isFetch ev = true := by
  intro rrs
  induction rrs with
  | nil => intro found ev h; simp [valPhase] at h
  | cons rr rest ih =>
    intro found ev h
    simp only [valPhase] at h
    split at h
    · simp at h
    · split at h
      · simp at h
      · split at h
        · exact validateRecurringRun_events env rr ev h
        · simp only [List.mem_append] at h
          rcases h with h | h
          · exact validateRecurringRun_events env rr ev h
          · exact ih _ ev h

theorem isFetch_not_jobMutating {ev : Ev} (h : Ev.isFetch ev = true) :
    Ev.isJobMutating ev = false := by
  cases ev <;> first | rfl | simp [Ev.isFetch] at h

theorem isFetch_not_mutating {ev : Ev} (h : Ev.isFetch ev = true) :
    Ev.isMutating ev = false := by
  cases ev <;> first | rfl | simp [Ev.isFetch] at h

/-- C1 (amended): every mutating recurring-run call happens only after every
declared recurring run passed validation — the run's trace is the
experiment-reconciliation calls, then the validation fetches, then (only
when validation succeeded in full) the job-reconciliation calls; the
experiment and validation segments contain no job-mutating call.  (As
stated the claim is false: experiments are reconciled — a mutating phase —
before job validation; see the counterexample.) -/
theorem claim_C1_all_jobs_validated_before_job_mutation (cfg : Config) (env : Env) :
    ((runMain cfg env false).1
      = (if (valPhase env (cfg.experiments.map fun e => e.name)
              cfg.recurringRuns []).2.isNone then
           expPhase env cfg.experiments
             ++ (valPhase env (cfg.experiments.map fun e => e.name)
                  cfg.recurringRuns []).1
             ++ recPhase env cfg.recurringRuns
         else
           expPhase env cfg.experiments
             ++ (valPhase env (cfg.experiments.map fun e => e.name)
                  cfg.recurringRuns []).1)) ∧
    (∀ ev ∈ expPhase env cfg.experiments
        ++ (valPhase env (cfg.experiments.map fun e => e.name)
            cfg.recurringRuns []).1,
      Ev.isJobMutating ev = false) := by
  constructor
  · simp only [runMain]
    cases hv : (valPhase env (cfg.experiments.map fun e => e.name)
        cfg.recurringRuns []).2 with
    | none => simp [hv]
    | some e => simp [hv]
  · intro ev h
    rcases List.mem_append.mp h with h | h
    · rcases expPhase_events env cfg.experiments ev h with ⟨nm, rfl⟩ | ⟨nm, rfl⟩
      · rfl
      · rfl
    · exact isFetch_not_jobMutating
        (valPhase_events env (cfg.experiments.map fun e => e.name)
          cfg.recurringRuns [] ev h)

/-- C2 (amended): a dry run performs zero mutating platform calls — in fact
its whole trace is the validation phase's GitHub fetches and nothing else —
while config validation (with all remote-file fetches and parameter
resolution) still runs in full and reaches the same verdict as a wet run's
validation.  (As stated the claim is false: dry-run skips the
desired-vs-live diff classification, since no platform client exists; see
the counterexample.) -/
theorem claim_C2_dry_run_zero_mutations (cfg : Config) (env : Env) :
    (runMain cfg env true
      = ((valPhase env (cfg.experiments.map fun e => e.name)
            cfg.recurringRuns []).1,
         (valPhase env (cfg.experiments.map fun e => e.name)
            cfg.recurringRuns []).2)) ∧
    (∀ ev ∈ (runMain cfg env true).1, Ev.isFetch ev = true) ∧
    (∀ ev ∈ (runMain cfg env true).1, Ev.isMutating ev = false) ∧
    (runMain cfg env true).2 = (runMain cfg env false).2 := by
  have h1 : runMain cfg env true
      = ((valPhase env (cfg.experiments.map fun e => e.name)
            cfg.recurringRuns []).1,
         (valPhase env (cfg.experiments.map fun e => e.name)
            cfg.recurringRuns []).2) := by
    simp only [runMain]
    cases hv : (valPhase env (cfg.experiments.map fun e => e.name)
        cfg.recurringRuns []).2 with
    | none => simp [hv]
    | some e => simp [hv]
  refine ⟨h1, ?_, ?_, ?_⟩
  · intro ev h
    rw [h1] at h
    exact valPhase_events env (cfg.experiments.map fun e => e.name)
      cfg.recurringRuns [] ev h
  · intro ev h
    rw [h1] at h
    exact isFetch_not_mutating
      (valPhase_events env (cfg.experiments.map fun e => e.name)
        cfg.recurringRuns [] ev h)
  · simp only [runMain]
    cases hv : (valPhase env (cfg.experiments.map fun e => e.name)
        cfg.recurringRuns []).2 with
    | none => simp [hv]
    | some e => simp [hv]

/-- Counterexample to C1 as stated: a run on a config with one experiment
(absent remotely) and one invalid recurring run aborts in validation, yet
its trace already contains mutating platform calls — the experiment was
created and unarchived before any recurring run was validated. -/
theorem claim_C1_counterexample :
    ((runMain exampleConfigC1 exampleEnvC1 false).2 ≠ Option.none) ∧
    ((runMain exampleConfigC1 exampleEnvC1 false).1.filter Ev.isMutating
      ≠ []) := by
  constructor
  · decide
  · decide

/-- Counterexample to C2 as stated: on a config that validates and has a
live remote version to classify, the wet run performs the desired-vs-live
classification but the dry run performs none — dry-run does not "still
perform diff classification". -/
theorem claim_C2_counterexample :
    ((runMain exampleConfigC2 exampleEnvC2 true).1.filter Ev.isClassify
      = []) ∧
    ((runMain exampleConfigC2 exampleEnvC2 false).1.filter Ev.isClassify
      ≠ []) ∧
    (runMain exampleConfigC2 exampleEnvC2 true).2 = Option.none := by
  refine ⟨?_, ?_, ?_⟩
  · decide
  · decide
  · decide

/-! ## Versioned-name lemmas for C9 -/
theorem tsShapeL_length {ts : List Char} (h : tsShapeL ts = true) :
    ts.length = 20 := by
  simp only [tsShapeL, Bool.and_eq_true, beq_iff_eq] at h
  exact h.1

/-- A name built by `get_new_job_name` matches the versioned-name regex
with job-name group equal to the job name it was built from, whenever the
timestamp component has the `strftime` shape. -/
theorem matchGitName_newJobName (j ts : String)
    (h : tsShapeL ts.toList = true) :
    matchGitName (newJobName j ts) j = true := by
  have hts20 : ts.toList.length = 20 := tsShapeL_length h
  have hg : ("GIT::".toList).length = 5 := by decide
  have hu : (['_', '_'] : List Char).length = 2 := by decide
  have hdata : (newJobName j ts).toList
      = ("GIT::".toList ++ j.toList) ++ (['_', '_'] ++ ts.toList) := by
    show ("GIT::" ++ j ++ "__" ++ ts).data = _
    rw [String.data_append, String.data_append, String.data_append]
    have : ("__" : String).data = ['_', '_'] := by decide
    rw [this]
    simp [String.toList, List.append_assoc]
  simp only [matchGitName, hdata, matchGitNameL, Bool.and_eq_true, beq_iff_eq]
  have hlen : (("GIT::".toList ++ j.toList) ++ (['_', '_'] ++ ts.toList)).length
      = j.toList.length + 27 := by
    simp only [List.length_append, hg, hu, hts20]
    omega
  refine ⟨⟨⟨⟨hlen, ?_⟩, ?_⟩, ?_⟩, ?_⟩
  · rw [List.append_assoc, List.take_left' hg]
  · rw [List.append_assoc, List.drop_left' hg, List.take_left]
  · have hl2 : ("GIT::".toList ++ j.toList).length = 5 + j.toList.length := by
      rw [List.length_append, hg]
    rw [List.drop_left' hl2, List.take_left' hu]
  · have hl3 : (("GIT::".toList ++ j.toList) ++ ['_', '_']).length
        = 7 + j.toList.length := by
      simp only [List.length_append, hg, hu]
      omega
    rw [← List.append_assoc, List.drop_left' hl3]
    exact h

theorem mem_insertByTsDesc {a r : RemoteRun} {l : List RemoteRun} :
    a ∈ insertByTsDesc r l ↔ a = r ∨ a ∈ l := by
  induction l with
  | nil => simp [insertByTsDesc]
  | cons x xs ih =>
    simp only [insertByTsDesc]
    split
    · simp
    · simp only [List.mem_cons, ih]
      tauto

theorem mem_sortByTsDesc {a : RemoteRun} {l : List RemoteRun} :
    a ∈ sortByTsDesc l ↔ a ∈ l := by
  have key : ∀ (l acc : List RemoteRun),
      (a ∈ l.foldl (fun acc r => insertByTsDesc r acc) acc ↔ a ∈ acc ∨ a ∈ l) := by
    intro l
    induction l with
    | nil => intro acc; simp
    | cons x xs ih =>
      intro acc
      simp only [List.foldl_cons, ih, mem_insertByTsDesc, List.mem_cons]
      tauto
  have h := key l []
  simp only [List.not_mem_nil, false_or] at h
  exact h

theorem mem_get_existing {jobs : List RemoteRun} {jobName : String}
    {r : RemoteRun} (h : r ∈ get_existing_recurring_runs jobs jobName) :
    r ∈ jobs ∧ matchGitName r.name jobName = true := by
  rw [get_existing_recurring_runs, mem_sortByTsDesc, List.mem_filter] at h
  exact h

theorem mem_pySliceFrom {α : Type} {k : Int} {l : List α} {a : α}
    (h : a ∈ pySliceFrom k l) : a ∈ l := by
  simp only [pySliceFrom] at h
  split at h
  · exact List.drop_subset _ _ h
  · exact List.drop_subset _ _ h

/-- Every enable/disable/delete of one per-job pass targets either an id of
the listed (matched) existing versions or the id of the run it creates. -/
theorem reconcileOneJob_targets (jobName : String) (jobEnabled : Bool)
    (keepHistory : Int) (existing : List RemoteRun) (upToDate : Bool)
    (newName newId : String) (i : String) :
    ∀ ev ∈ reconcileOneJob jobName jobEnabled keepHistory existing upToDate
        newName newId,
      Ev.targetsId ev i = true → (∃ r ∈ existing, r.id = i) ∨ i = newId := by
  have hpre : ∀ ev ∈ preDisableEvs existing, Ev.targetsId ev i = true →
      ∃ r ∈ existing, r.id = i := by
    intro ev hev ht
    obtain ⟨r, hr, rfl⟩ := List.mem_map.mp hev
    simp only [Ev.targetsId, beq_iff_eq] at ht
    exact ⟨r, List.mem_filter.mp hr |>.1 |> List.drop_subset _ _, ht⟩
  have hprune : ∀ (runs : List RemoteRun), ∀ ev ∈ pruneEvs keepHistory runs,
      Ev.targetsId ev i = true → ∃ r ∈ runs, r.id = i := by
    intro runs ev hev ht
    simp only [pruneEvs] at hev
    split at hev
    · simp at hev
    · obtain ⟨r, hr, rfl⟩ := List.mem_map.mp hev
      simp only [Ev.targetsId, beq_iff_eq] at ht
      exact ⟨r, mem_pySliceFrom hr, ht⟩
  intro ev hev ht
  rcases hex : existing.head? with _ | ⟨L⟩
  · have hexnil : existing = [] := by
      cases existing
      · rfl
      · simp at hex
    subst hexnil
    simp only [reconcileOneJob, List.head?_nil] at hev
    simp only [List.append_assoc, List.mem_append, List.mem_singleton,
      List.mem_cons, List.not_mem_nil, or_false, false_or] at hev
    rcases hev with rfl | hev
    · simp [Ev.targetsId] at ht
    rcases hev with hev | hev
    · exact Or.inl (hpre ev hev ht)
    rcases hev with rfl | hev
    · simp [Ev.targetsId] at ht
    rcases hev with hev | hev
    · split at hev
      · simp only [List.mem_singleton] at hev
        subst hev
        simp only [Ev.targetsId, beq_iff_eq] at ht
        exact Or.inr ht.symm
      · simp at hev
    · obtain ⟨r, hr, he⟩ := hprune _ ev hev ht
      rcases List.mem_cons.mp hr with rfl | hr2
      · exact Or.inr he.symm
      · simp at hr2
  · have hL : L ∈ existing := by
      cases existing
      · simp at hex
      · simp only [List.head?_cons, Option.some_inj] at hex
        subst hex
        exact List.mem_cons_self _ _
    simp only [reconcileOneJob, hex] at hev
    simp only [List.append_assoc, List.mem_append, List.mem_cons,
      List.mem_singleton, List.not_mem_nil, or_false, false_or] at hev
    rcases hev with (rfl | rfl) | hev | hev
    · simp [Ev.targetsId] at ht
    · simp [Ev.targetsId] at ht
    · exact Or.inl (hpre ev hev ht)
    · split at hev
      · -- latest is up to date: flag fix then prune of `existing`
        simp only [List.mem_append] at hev
        rcases hev with hev | hev
        · split at hev
          · simp only [List.mem_singleton] at hev
            subst hev
            simp only [Ev.targetsId, beq_iff_eq] at ht
            exact Or.inl ⟨L, hL, ht⟩
          · split at hev
            · simp only [List.mem_singleton] at hev
              subst hev
              simp only [Ev.targetsId, beq_iff_eq] at ht
              exact Or.inl ⟨L, hL, ht⟩
            · simp at hev
        · obtain ⟨r, hr, he⟩ := hprune _ ev hev ht
          exact Or.inl ⟨r, hr, he⟩
      · -- stale: create, disable old, enable new, prune of new :: existing
        simp only [List.mem_cons, List.mem_append, List.mem_singleton,
          List.not_mem_nil, or_false, false_or] at hev
        rcases hev with (rfl | rfl) | hev | hev
        · simp [Ev.targetsId] at ht
        · simp only [Ev.targetsId, beq_iff_eq] at ht
          exact Or.inl ⟨L, hL, ht⟩
        · split at hev
          · simp only [List.mem_singleton] at hev
            subst hev
            simp only [Ev.targetsId, beq_iff_eq] at ht
            exact Or.inr ht.symm
          · simp at hev
        · obtain ⟨r, hr, he⟩ := hprune _ ev hev ht
          rcases List.mem_cons.mp hr with rfl | hr2
          · exact Or.inr he.symm
          · exact Or.inl ⟨r, hr2, he⟩

/-- Every create of one per-job pass creates the versioned name built for
this job, disabled. -/
theorem reconcileOneJob_creates (jobName : String) (jobEnabled : Bool)
    (keepHistory : Int) (existing : List RemoteRun) (upToDate : Bool)
    (newName newId : String) :
    ∀ ev ∈ reconcileOneJob jobName jobEnabled keepHistory existing upToDate
        newName newId,
      ∀ ci cn cen, ev = Ev.createJob ci cn cen →
        ci = newId ∧ cn = newName ∧ cen = false := by
  have hpre : ∀ ev ∈ preDisableEvs existing, ∀ ci cn cen,
      ev ≠ Ev.createJob ci cn cen := by
    intro ev hev ci cn cen
    obtain ⟨r, _, rfl⟩ := List.mem_map.mp hev
    intro hcon
    exact Ev.noConfusion hcon
  have hprune : ∀ (runs : List RemoteRun), ∀ ev ∈ pruneEvs keepHistory runs,
      ∀ ci cn cen, ev ≠ Ev.createJob ci cn cen := by
    intro runs ev hev ci cn cen
    simp only [pruneEvs] at hev
    split at hev
    · simp at hev
    · obtain ⟨r, _, rfl⟩ := List.mem_map.mp hev
      intro hcon
      exact Ev.noConfusion hcon
  intro ev hev ci cn cen hcev
  subst hcev
  rcases hex : existing.head? with _ | ⟨L⟩
  · have hexnil : existing = [] := by
      cases existing
      · rfl
      · simp at hex
    subst hexnil
    simp only [reconcileOneJob, List.head?_nil] at hev
    simp only [List.append_assoc, List.mem_append, List.mem_singleton,
      List.mem_cons, List.not_mem_nil, or_false, false_or] at hev
    rcases hev with h | hev
    · exact Ev.noConfusion h
    rcases hev with hev | hev
    · exact absurd rfl (hpre _ hev ci cn cen)
    rcases hev with h | hev
    · obtain ⟨h1, h2, h3⟩ := Ev.createJob.inj h
      exact ⟨h1, h2, h3⟩
    rcases hev with hev | hev
    · split at hev
      · simp only [List.mem_singleton] at hev
        exact Ev.noConfusion hev
      · simp at hev
    · exact absurd rfl (hprune _ _ hev ci cn cen)
  · simp only [reconcileOneJob, hex] at hev
    simp only [List.append_assoc, List.mem_append, List.mem_cons,
      List.mem_singleton, List.not_mem_nil, or_false, false_or] at hev
    rcases hev with (h | h) | hev | hev
    · exact Ev.noConfusion h
    · exact Ev.noConfusion h
    · exact absurd rfl (hpre _ hev ci cn cen)
    · split at hev
      · simp only [List.mem_append] at hev
        rcases hev with hev | hev
        · split at hev
          · simp only [List.mem_singleton] at hev
            exact Ev.noConfusion hev
          · split at hev
            · simp only [List.mem_singleton] at hev
              exact Ev.noConfusion hev
            · simp at hev
        · exact absurd rfl (hprune _ _ hev ci cn cen)
      · simp only [List.mem_cons, List.mem_append, List.mem_singleton,
          List.not_mem_nil, or_false, false_or] at hev
        rcases hev with (h | h) | hev | hev
        · obtain ⟨h1, h2, h3⟩ := Ev.createJob.inj h
          exact ⟨h1, h2, h3⟩
        · exact Ev.noConfusion h
        · split at hev
          · simp only [List.mem_singleton] at hev
            exact Ev.noConfusion hev
          · simp at hev
        · exact absurd rfl (hprune _ _ hev ci cn cen)

theorem mem_recPhase {env : Env} {rrs : List RecurringRunSpec} {ev : Ev}
    (h : ev ∈ recPhase env rrs) :
    ∃ rr ∈ rrs, ev ∈ reconcileOneJob rr.job.name rr.job.enabled
      (rr.keepHistory.getD 5)
      (get_existing_recurring_runs env.remoteJobs rr.job.name)
      (env.upToDate rr.job.name)
      (newJobName rr.job.name env.nowTs) (env.freshId rr.job.name) := by
  induction rrs with
  | nil => simp [recPhase] at h
  | cons rr rest ih =>
    simp only [recPhase, List.mem_append] at h
    rcases h with h | h
    · exact ⟨rr, List.mem_cons_self rr rest, h⟩
    · obtain ⟨rr2, hm, hev⟩ := ih h
      exact ⟨rr2, List.mem_cons_of_mem rr hm, hev⟩

theorem isFetch_not_targets {ev : Ev} {i : String} (h : Ev.isFetch ev = true) :
    Ev.targetsId ev i = false := by
  cases ev <;> first | rfl | simp [Ev.isFetch] at h

theorem runMain_trace_phases (cfg : Config) (env : Env) :
    ∀ ev ∈ (runMain cfg env false).1,
      ev ∈ expPhase env cfg.experiments ∨
      ev ∈ (valPhase env (cfg.experiments.map fun e => e.name)
        cfg.recurringRuns []).1 ∨
      ev ∈ recPhase env cfg.recurringRuns := by
  intro ev h
  simp only [runMain] at h
  cases hv : (valPhase env (cfg.experiments.map fun e => e.name)
      cfg.recurringRuns []).2 with
  | none =>
    rw [hv] at h
    simp only [List.append_assoc, List.mem_append] at h
    tauto
  | some e =>
    rw [hv] at h
    simp only [List.mem_append] at h
    tauto

/-- C9: a reconciliation run mutates (enables, disables or deletes) only
remote jobs whose name matches the versioned-name pattern
`GIT::{job_name}__{timestamp}` (timestamp `YYYY-MM-DDTHH-MM-SSZ`) for some
declared job name — a remote job matching no declared job name is never
touched — and every recurring run it creates carries a name of that
pattern for a declared job name.  (Hypotheses: the `strftime` timestamp has
the timestamp shape, remote ids are distinct and freshly assigned ids are
new.) -/
theorem claim_C9_mutations_only_versioned_names (cfg : Config) (env : Env)
    (hts : tsShapeL env.nowTs.toList = true)
    (hnodup : (env.remoteJobs.map fun r => r.id).Nodup)
    (hfresh : ∀ jobName : String,
      env.freshId jobName ∉ env.remoteJobs.map fun r => r.id) :
    (∀ r ∈ env.remoteJobs,
      (∀ rr ∈ cfg.recurringRuns, matchGitName r.name rr.job.name = false) →
      ∀ ev ∈ (runMain cfg env false).1, Ev.targetsId ev r.id = false) ∧
    (∀ ev ∈ (runMain cfg env false).1, ∀ ci cn cen,
      ev = Ev.createJob ci cn cen →
      ∃ rr ∈ cfg.recurringRuns, matchGitName cn rr.job.name = true) := by
  constructor
  · intro r hr hunm ev hev
    cases hb : Ev.targetsId ev r.id with
    | false => rfl
    | true =>
      exfalso
      rcases runMain_trace_phases cfg env ev hev with h | h | h
      · rcases expPhase_events env cfg.experiments ev h with ⟨nm, rfl⟩ | ⟨nm, rfl⟩ <;>
          simp [Ev.targetsId] at hb
      · have hf := valPhase_events env (cfg.experiments.map fun e => e.name)
          cfg.recurringRuns [] ev h
        rw [isFetch_not_targets hf] at hb
        exact Bool.noConfusion hb
      · obtain ⟨rr, hrr, hevj⟩ := mem_recPhase h
        rcases reconcileOneJob_targets rr.job.name rr.job.enabled
            (rr.keepHistory.getD 5)
            (get_existing_recurring_runs env.remoteJobs rr.job.name)
            (env.upToDate rr.job.name)
            (newJobName rr.job.name env.nowTs) (env.freshId rr.job.name)
            r.id ev hevj hb with ⟨x, hx, hxid⟩ | hid
        · obtain ⟨hxjobs, hxmatch⟩ := mem_get_existing hx
          have hxr : x = r :=
            List.inj_on_of_nodup_map hnodup hxjobs hr hxid
          rw [hxr] at hxmatch
          rw [hunm rr hrr] at hxmatch
          exact Bool.noConfusion hxmatch
        · exact hfresh rr.job.name (hid ▸ List.mem_map_of_mem _ hr)
  · intro ev hev ci cn cen hcev
    rcases runMain_trace_phases cfg env ev hev with h | h | h
    · rcases expPhase_events env cfg.experiments ev h with ⟨nm, rfl⟩ | ⟨nm, rfl⟩ <;>
        exact Ev.noConfusion hcev
    · have hf := valPhase_events env (cfg.experiments.map fun e => e.name)
        cfg.recurringRuns [] ev h
      subst hcev
      simp [Ev.isFetch] at hf
    · obtain ⟨rr, hrr, hevj⟩ := mem_recPhase h
      obtain ⟨hci, hcn, hcen⟩ := reconcileOneJob_creates rr.job.name
        rr.job.enabled (rr.keepHistory.getD 5)
        (get_existing_recurring_runs env.remoteJobs rr.job.name)
        (env.upToDate rr.job.name)
        (newJobName rr.job.name env.nowTs) (env.freshId rr.job.name)
        ev hevj ci cn cen hcev
      refine ⟨rr, hrr, ?_⟩
      rw [hcn]
      exact matchGitName_newJobName rr.job.name env.nowTs hts

/-- Witness for C9 on the concrete valid run: its environment has a
well-shaped timestamp, distinct remote ids and a fresh created id. -/
theorem claim_C9_witness :
    (tsShapeL exampleEnvC2.nowTs.toList = true) ∧
    ((exampleEnvC2.remoteJobs.map fun r => r.id).Nodup) ∧
    (∀ jobName : String,
      exampleEnvC2.freshId jobName ∉ exampleEnvC2.remoteJobs.map fun r => r.id) ∧
    ((∀ r ∈ exampleEnvC2.remoteJobs,
      (∀ rr ∈ exampleConfigC2.recurringRuns,
        matchGitName r.name rr.job.name = false) →
      ∀ ev ∈ (runMain exampleConfigC2 exampleEnvC2 false).1,
        Ev.targetsId ev r.id = false) ∧
    (∀ ev ∈ (runMain exampleConfigC2 exampleEnvC2 false).1, ∀ ci cn cen,
      ev = Ev.createJob ci cn cen →
      ∃ rr ∈ exampleConfigC2.recurringRuns,
        matchGitName cn rr.job.name = true)) :=
  ⟨by decide, by decide,
   fun _ => by
     show ("fresh" : String) ∉ List.map (fun r => r.id)
       ([⟨"id1", "GIT::j__2024-01-01T00-00-00Z", true⟩] : List RemoteRun)
     decide,
   claim_C9_mutations_only_versioned_names exampleConfigC2 exampleEnvC2
     (by decide) (by decide)
     (fun _ => by
       show ("fresh" : String) ∉ List.map (fun r => r.id)
         ([⟨"id1", "GIT::j__2024-01-01T00-00-00Z", true⟩] : List RemoteRun)
       decide)⟩

end KfpGitops
